import Mathlib

/-!
Verification development for the inline-Svelte Vite plugin
(`src/lib/plugin/index.ts`).  The plugin's transform, helper functions,
regex scans and the virtual-module protocol are embedded as executable
Lean definitions over `List Char`; theorems below settle the spec claims.

Strings are modelled as `List Char`.  JavaScript regular expressions used
by the plugin are embedded as explicit left-to-right first-match scanners
with the exact semantics of each pattern.  The external collaborators
(the Svelte compiler, the `crypto` SHA-1 digest, MagicString) are
modelled respectively as a function parameter, a concrete SHA-1
implementation, and total edit-script application.
-/

set_option maxRecDepth 10000

abbrev Str := List Char

/-- Shorthand turning a Lean string literal into the `List Char` model. -/
def S (s : String) : Str := s.data

/-- JavaScript whitespace (the common code points matched by `\s`). -/
def isJsWs (c : Char) : Bool :=
  c = ' ' || c = '\t' || c = '\n' || c = '\r' || c = '\x0b' || c = '\x0c'

/-- JavaScript word character, the `\w` class (`[A-Za-z0-9_]`). -/
def isWordChar (c : Char) : Bool :=
  ('a' ≤ c && c ≤ 'z') || ('A' ≤ c && c ≤ 'Z') || ('0' ≤ c && c ≤ '9') || c = '_'

/-- Identifier characters of the plugin's name patterns (`[a-zA-Z0-9_$]`). -/
def isNameChar (c : Char) : Bool := isWordChar c || c = '$'

/-- Line terminators excluded by an unflagged `.` in a JS regex. -/
def isLineTerm (c : Char) : Bool := c = '\n' || c = '\r'

/-- `litAt s lit i`: the literal `lit` occurs in `s` starting at index `i`. -/
def litAt (s lit : Str) (i : Nat) : Bool := lit.isPrefixOf (s.drop i)

/-- Case-insensitive variant of `litAt` (for regexes carrying the `i` flag). -/
def ciLitAt (s lit : Str) (i : Nat) : Bool :=
  (lit.map Char.toLower).isPrefixOf ((s.drop i).map Char.toLower)

/-- First index `i ≤ j < n` at which the matcher `f` succeeds, with its
result: the left-to-right first-match rule of JS regex scanning. -/
def scanFirst (f : Nat → Option α) (n i : Nat) : Option (Nat × α) :=
  (List.range' i (n - i)).findSome? (fun j => (f j).map (fun a => (j, a)))

/-- End of the maximal run of characters satisfying `p` starting at `i`. -/
def runEnd (p : Char → Bool) (s : Str) (i : Nat) : Nat :=
  i + ((s.drop i).takeWhile p).length

/-- `String.prototype.indexOf(pat, i)` (as an `Option` instead of `-1`). -/
def idxFrom (s pat : Str) (i : Nat) : Option Nat :=
  (scanFirst (fun j => if litAt s pat j then some () else none) (s.length + 1) i).map (·.1)

/-- Whether `pat` occurs anywhere in `s` (`String.prototype.includes`). -/
def containsSub (s pat : Str) : Bool := (idxFrom s pat 0).isSome

/-- `Array.prototype.join(sep)`. -/
def joinSep (sep : Str) : List Str → Str
  | [] => []
  | [x] => x
  | x :: xs => x ++ sep ++ joinSep sep xs

/-- `String.prototype.trim()`. -/
def jsTrim (s : Str) : Str :=
  ((s.dropWhile isJsWs).reverse.dropWhile isJsWs).reverse

/-- Replace the first literal occurrence of `pat` (JS `replace` with a
string pattern). -/
def replaceFirstOcc (s pat repl : Str) : Str :=
  match idxFrom s pat 0 with
  | some i => s.take i ++ repl ++ s.drop (i + pat.length)
  | none => s

/-! ### JS `Map` and `Set`, as association lists in insertion order -/

/-- `Map.prototype.get`. -/
def aget (m : List (Str × α)) (k : Str) : Option α :=
  (m.find? (fun e => e.1 == k)).map (·.2)

/-- `Map.prototype.set`: replace in place, or append. -/
def aset (m : List (Str × α)) (k : Str) (v : α) : List (Str × α) :=
  match m with
  | [] => [(k, v)]
  | (k', v') :: rest => if k' == k then (k, v) :: rest else (k', v') :: aset rest k v

/-- Keys of a map, in insertion order. -/
def akeys (m : List (Str × α)) : List Str := m.map (·.1)

/-- Number of entries stored under key `k`. -/
def acount (m : List (Str × α)) (k : Str) : Nat :=
  (m.filter (fun e => e.1 == k)).length

/-- `Set.prototype.add` (dedup, insertion order kept). -/
def sadd (s : List Str) (x : Str) : List Str :=
  if s.contains x then s else s ++ [x]

/-! ### SHA-1 (the `crypto` collaborator), on `Nat` modulo `2 ^ 32` -/

/-- Truncate to 32 bits. -/
def u32 (n : Nat) : Nat := n % 4294967296

/-- Rotate a 32-bit word left by `k`. -/
def rotl32 (n k : Nat) : Nat := u32 (n * 2 ^ k + n / 2 ^ (32 - k))

/-- UTF-8 bytes of one character (what `hash.update(string)` digests). -/
def utf8Bytes (c : Char) : List Nat :=
  let n := c.toNat
  if n < 128 then [n]
  else if n < 2048 then [192 + n / 64, 128 + n % 64]
  else if n < 65536 then [224 + n / 4096, 128 + n / 64 % 64, 128 + n % 64]
  else [240 + n / 262144, 128 + n / 4096 % 64, 128 + n / 64 % 64, 128 + n % 64]

/-- UTF-8 byte stream of a string. -/
def strBytes (s : Str) : List Nat := s.foldr (fun c acc => utf8Bytes c ++ acc) []

/-- Big-endian bytes (`k` of them) of `n`. -/
def beBytes (k n : Nat) : List Nat :=
  (List.range k).map (fun i => n / 2 ^ (8 * (k - 1 - i)) % 256)

/-- SHA-1 message padding. -/
def sha1pad (msg : List Nat) : List Nat :=
  let pad := (120 - (msg.length + 1) % 64) % 64
  msg ++ [128] ++ List.replicate pad 0 ++ beBytes 8 (8 * msg.length)

/-- Recursion scaffold for `chunks64` (the counter dominates the length,
so the list is consumed completely). -/
def chunks64Go : Nat → List Nat → List (List Nat)
  | 0, _ => []
  | _, [] => []
  | k + 1, x :: rest => (x :: rest).take 64 :: chunks64Go k ((x :: rest).drop 64)

/-- Split the padded message into 64-byte chunks. -/
def chunks64 (l : List Nat) : List (List Nat) := chunks64Go l.length l

/-- The sixteen 32-bit big-endian words of one chunk. -/
def chunkWords (c : List Nat) : List Nat :=
  (List.range 16).map (fun i =>
    c.getD (4 * i) 0 * 16777216 + c.getD (4 * i + 1) 0 * 65536 +
    c.getD (4 * i + 2) 0 * 256 + c.getD (4 * i + 3) 0)

/-- Extend sixteen words to eighty. -/
def extendWords (acc : List Nat) : Nat → List Nat
  | 0 => acc
  | k + 1 =>
    let n := acc.length
    let w := rotl32 (((acc.getD (n - 3) 0 ^^^ acc.getD (n - 8) 0) ^^^
      acc.getD (n - 14) 0) ^^^ acc.getD (n - 16) 0) 1
    extendWords (acc ++ [w]) k

/-- One round of the SHA-1 compression function. -/
def sha1round (i : Nat) (st : Nat × Nat × Nat × Nat × Nat) (wi : Nat) :
    Nat × Nat × Nat × Nat × Nat :=
  let (a, b, c, d, e) := st
  let f :=
    if i < 20 then (b &&& c) ||| ((b ^^^ 4294967295) &&& d)
    else if i < 40 then (b ^^^ c) ^^^ d
    else if i < 60 then ((b &&& c) ||| (b &&& d)) ||| (c &&& d)
    else (b ^^^ c) ^^^ d
  let k :=
    if i < 20 then 1518500249
    else if i < 40 then 1859775393
    else if i < 60 then 2400959708
    else 3395469782
  (u32 (rotl32 a 5 + f + e + k + wi), a, rotl32 b 30, c, d)

/-- Process one chunk, updating the five state words. -/
def sha1chunk (h : Nat × Nat × Nat × Nat × Nat) (c : List Nat) :
    Nat × Nat × Nat × Nat × Nat :=
  let w := extendWords (chunkWords c) 64
  let (h0, h1, h2, h3, h4) := h
  let fin := (w.enum.foldl (fun st p => sha1round p.1 st p.2) (h0, h1, h2, h3, h4))
  let (a, b, c', d, e) := fin
  (u32 (h0 + a), u32 (h1 + b), u32 (h2 + c'), u32 (h3 + d), u32 (h4 + e))

/-- Hex digit character (lowercase, as `digest("hex")` prints). -/
def hexDigit (n : Nat) : Char :=
  if n % 16 < 10 then Char.ofNat (48 + n % 16) else Char.ofNat (87 + n % 16)

/-- Eight-hex-character rendering of one 32-bit word. -/
def hex8 (n : Nat) : Str :=
  (List.range 8).map (fun i => hexDigit (n / 2 ^ (4 * (7 - i))))

/-- Full SHA-1 hex digest of a string (40 hex characters). -/
def sha1hex (s : Str) : Str :=
  let (h0, h1, h2, h3, h4) :=
    (chunks64 (sha1pad (strBytes s))).foldl sha1chunk
      (1732584193, 4023233417, 2562383102, 271733878, 3285377520)
  hex8 h0 ++ hex8 h1 ++ hex8 h2 ++ hex8 h3 ++ hex8 h4

/-- The plugin's content hash:
`createHash("sha1").update(markup).digest("hex").slice(0, 8)`. -/
def hash8 (s : Str) : Str := (sha1hex s).take 8

/-! ### The script-tag regex of `applySharedCode`

`scriptRE = /<script(?![^>]*context=["']module["'])[^>]*>/i` -/

/-- The backtick character. -/
def btick : Char := Char.ofNat 96

/-- The single-quote character. -/
def sqc : Char := Char.ofNat 39

/-- Either quote character, the `["']` class. -/
def isQuote (c : Char) : Bool := c = '"' || c = sqc

/-- Whether the character at index `i` is `c`. -/
def isCharAt (s : Str) (i : Nat) (c : Char) : Bool :=
  match s[i]? with
  | some c2 => c2 = c
  | none => false

/-- The literal `context=["']module["']` at position `i` (letters
case-insensitive, as the regex carries the `i` flag). -/
def ctxModuleAt (s : Str) (i : Nat) : Bool :=
  ciLitAt s (S "context=") i &&
  (match s[i + 8]? with
   | some q => isQuote q && ciLitAt s (S "module") (i + 9) &&
       (match s[i + 15]? with | some q2 => isQuote q2 | none => false)
   | none => false)

/-- The negative-lookahead body `[^>]*context=["']module["']`: scan
non-`>` characters looking for the module-context attribute. -/
def hasCtxModule (s : Str) (i : Nat) : Bool :=
  (List.range' i (runEnd (fun c => !(c = '>')) s i + 1 - i)).any (ctxModuleAt s)

/-- One attempt of `scriptRE` at position `i`; on success returns the
index just past the closing `>`. -/
def scriptTagAt (s : Str) (i : Nat) : Option Nat :=
  if ciLitAt s (S "<script") i && !hasCtxModule s (i + 7) then
    (idxFrom s (S ">") (i + 7)).map (· + 1)
  else none

/-- `applySharedCode` (plugin lines 21–31): inject shared code after the
first script tag matching `scriptRE`, or synthesize a script region. -/
def applySharedCode (markup code : Str) : Str :=
  if code = [] then markup
  else
    match scanFirst (scriptTagAt markup) markup.length 0 with
    | some (_, idx) =>
        markup.take idx ++ S "\n" ++ code ++ S "\n" ++ markup.drop idx
    | none => S "<script>\n" ++ code ++ S "\n</script>\n" ++ markup

/-! ### `moduleScriptExportRE = /<script\s+module\s*>[^<]*\bexport\b/` -/

/-- `\bexport\b` at position `k`. -/
def exportWordAt (s : Str) (k : Nat) : Bool :=
  litAt s (S "export") k &&
  (match k with | 0 => true | j + 1 => !isWordChar (s.getD j ' ')) &&
  (match s[k + 6]? with | some c => !isWordChar c | none => true)

/-- Scan the `[^<]*` run for a bounded `export` word. -/
def moduleExportFrom (s : Str) (k : Nat) : Bool :=
  (List.range' k (runEnd (fun c => !(c = '<')) s k + 1 - k)).any (exportWordAt s)

/-- `<script\s+module\s*>` at position `i`; returns the index after `>`. -/
def moduleScriptTagAt (s : Str) (i : Nat) : Option Nat :=
  if litAt s (S "<script") i then
    let j := runEnd isJsWs s (i + 7)
    if i + 7 < j && litAt s (S "module") j then
      let k := runEnd isJsWs s (j + 6)
      if isCharAt s k '>' then some (k + 1)
      else none
    else none
  else none

/-- `moduleScriptExportRE.test` (plugin line 69). -/
def moduleScriptExportTest (s : Str) : Bool :=
  (scanFirst (fun i =>
    match moduleScriptTagAt s i with
    | some q => if moduleExportFrom s q then some () else none
    | none => none) s.length 0).isSome

/-! ### Whole-word reference test: `new RegExp ("\\b" + name + "\\b")`

Modelled for names over `[A-Za-z0-9_]` (the `$`-free identifiers), for
which the constructed regex means a literal occurrence flanked by
word-boundaries. -/

/-- `name` occurs literally at `i` with `\b` on both sides. -/
def wordAt (s name : Str) (i : Nat) : Bool :=
  litAt s name i &&
  (match i with | 0 => true | j + 1 => !isWordChar (s.getD j ' ')) &&
  (match s[i + name.length]? with | some c => !isWordChar c | none => true)

/-- `/\bname\b/.test content`. -/
def wordBoundaryTest (content name : Str) : Bool :=
  (scanFirst (fun i => if wordAt content name i then some () else none)
    (content.length + 1) 0).isSome

/-! ### The local-shadowing test
`new RegExp ("\\b(let|const|var)\\s+[^=;]*?\\b" + name + "\\b")` -/

/-- `\b(let|const|var)` at `i`; returns the index after the keyword. -/
def kwAt (s : Str) (i : Nat) : Option Nat :=
  if (match i with | 0 => true | j + 1 => !isWordChar (s.getD j ' ')) then
    if litAt s (S "let") i then some (i + 3)
    else if litAt s (S "const") i then some (i + 5)
    else if litAt s (S "var") i then some (i + 3)
    else none
  else none

/-- Scan the `[^=;]*?` region (characters other than `=` and `;`) for a
bounded occurrence of `name`. -/
def declNameFrom (s name : Str) (k : Nat) : Bool :=
  (List.range' k (runEnd (fun c => !(c = '=' || c = ';')) s k + 1 - k)).any (wordAt s name)

/-- The `isDeclaredInScript` test (plugin lines 250–252). -/
def declaredTest (content name : Str) : Bool :=
  (scanFirst (fun i =>
    match kwAt content i with
    | some e =>
      if (match content[e]? with | some c => isJsWs c | none => false) then
        (if declNameFrom content name (e + 1) then some () else none)
      else none
    | none => none) (content.length + 1) 0).isSome

/-! ### First script content: `/<script.*?>([\s\S]*?)<\/script>/` -/

/-- First `>` at or after `j` with no line terminator before it (the
`.*?>` part of the pattern, `.` not matching line terminators). -/
def gtOnLine (s : Str) (j : Nat) : Option Nat :=
  let stop := runEnd (fun c => !(c = '>' || isLineTerm c)) s j
  if isCharAt s stop '>' then some stop else none

/-- One attempt of the first-script regex at `i`; returns group 1. -/
def scriptContentAt (s : Str) (i : Nat) : Option Str :=
  if litAt s (S "<script") i then
    match gtOnLine s (i + 7) with
    | some j =>
      match idxFrom s (S "</script>") (j + 1) with
      | some l => some ((s.take l).drop (j + 1))
      | none => none
    | none => none
  else none

/-- `rawMarkup.match(/<script.*?>([\s\S]*?)<\/script>/)?.[1] ?? ""`
(plugin line 242). -/
def firstScriptContent (s : Str) : Str :=
  match scanFirst (fun i => scriptContentAt s i) s.length 0 with
  | some (_, c) => c
  | none => []

/-! ### The template-tag regex, default tags:
`tplRE = /(?:html|svelte)\s*`…`/g` (lazy body up to the next backtick) -/

/-- Tag alternation `(?:html|svelte)` at `i`; returns the tag length. -/
def tplTagAt (s : Str) (i : Nat) : Option Nat :=
  if litAt s (S "html") i then some 4
  else if litAt s (S "svelte") i then some 6
  else none

/-- One attempt of `tplRE` at `i`: `(contentStart, contentEnd, matchEnd)`. -/
def tplMatchAt (s : Str) (i : Nat) : Option (Nat × Nat × Nat) :=
  match tplTagAt s i with
  | some tl =>
    let j := runEnd isJsWs s (i + tl)
    if isCharAt s j btick then
      match idxFrom s (S "`") (j + 1) with
      | some e => some (j + 1, e, e + 1)
      | none => none
    else none
  | none => none

/-- One step of a global (`g`-flag) regex scan over positions `0..n-1`
with a jump cursor: positions below the cursor (inside the previous
match) are skipped; a successful attempt at `p` emits its record and
jumps to its match end. -/
def gscanStep (f : Nat → Option (Nat × Option β)) (st : Nat × List β) (p : Nat) :
    Nat × List β :=
  if p < st.1 then st
  else
    match f p with
    | some (nxt, b) => (max nxt (p + 1), st.2 ++ b.toList)
    | none => (p + 1, st.2)

/-- Global regex scan: successive `exec` calls advancing `lastIndex`. -/
def gscan (f : Nat → Option (Nat × Option β)) (n : Nat) : List β :=
  ((List.range n).foldl (gscanStep f) (0, [])).2

/-- One match of the template-tag scan. -/
structure TplMatch where
  start : Nat
  contentStart : Nat
  contentEnd : Nat
  matchEnd : Nat
deriving Repr, DecidableEq

/-- All template-tag matches of a file, in source order. -/
def tplMatches (s : Str) : List TplMatch :=
  gscan (fun p => (tplMatchAt s p).map
    (fun r => (r.2.2, some (⟨p, r.1, r.2.1, r.2.2⟩ : TplMatch)))) s.length

/-- The raw markup (group 1) of a template match. -/
def tplRaw (s : Str) (m : TplMatch) : Str := (s.take m.contentEnd).drop m.contentStart

/-! ### The definitions fence, default delimiters:
`fenceRE = /\/\* svelte:definitions([\s\S]*?)\*\//m` -/

/-- Default fence-start delimiter. -/
def fenceStartLit : Str := S "/* svelte:definitions"

/-- Default fence-end delimiter. -/
def fenceEndLit : Str := S "*/"

/-- A fence match: full span and interior span. -/
structure FenceMatch where
  start : Nat
  contentStart : Nat
  contentEnd : Nat
  matchEnd : Nat
deriving Repr, DecidableEq

/-- First match of `fenceRE`. -/
def fenceFind (s : Str) : Option FenceMatch :=
  match scanFirst (fun i =>
    if litAt s fenceStartLit i then idxFrom s fenceEndLit (i + fenceStartLit.length)
    else none) (s.length + 1) 0 with
  | some (i, e) => some ⟨i, i + fenceStartLit.length, e, e + 2⟩
  | none => none

/-- Interior text of the fence match. -/
def fenceContentOf (s : Str) (f : FenceMatch) : Str :=
  (s.take f.contentEnd).drop f.contentStart

/-! ### Import statements: `/import[\s\S]*?from\s*['"].*?['"];?/g` -/

/-- First closing quote at or after `j` with no line terminator before
it (the lazy `.*?['"]` part). -/
def quoteEndOnLine (s : Str) (j : Nat) : Option Nat :=
  let stop := runEnd (fun c => !(isQuote c || isLineTerm c)) s j
  if (match s[stop]? with | some c => isQuote c | none => false) then some stop
  else none

/-- `\s*['"].*?['"];?` after a `from`; `k` is just past `from`.  Returns
the match end. -/
def importQuote (s : Str) (k : Nat) : Option Nat :=
  let w := runEnd isJsWs s k
  if (match s[w]? with | some c => isQuote c | none => false) then
    match quoteEndOnLine s (w + 1) with
    | some l =>
      some (if isCharAt s (l + 1) ';' then l + 2 else l + 1)
    | none => none
  else none

/-- The lazy `[\s\S]*?from…` search: try each `from` occurrence in turn. -/
def importFromScan (s : Str) (j : Nat) : Option Nat :=
  (scanFirst (fun k => if litAt s (S "from") k then importQuote s (k + 4) else none)
    s.length j).map (fun pr => pr.2)

/-- One attempt of the import regex at `i`; returns the match end. -/
def importMatchAt (s : Str) (i : Nat) : Option Nat :=
  if litAt s (S "import") i then importFromScan s (i + 6) else none

/-- Global scan of the import regex: list of `(start, end)` spans. -/
def importSpans (s : Str) : List (Nat × Nat) :=
  gscan (fun p => (importMatchAt s p).map (fun e => (e, some (p, e)))) s.length

/-- The matched import statements (`code.match(importRE) ?? []`). -/
def importMatchesStr (s : Str) : List Str :=
  (importSpans s).map (fun pr => (s.take pr.2).drop pr.1)

/-- Apply a sorted list of non-overlapping `(start, end, text)` edits
(the MagicString collaborator, modelled as total edit-script splicing). -/
def applyEdits (s : Str) : Nat → List (Nat × Nat × Str) → Str
  | pos, [] => s.drop pos
  | pos, (st, en, t) :: rest => ((s.take st).drop pos) ++ t ++ applyEdits s en rest

/-- `s.replace(importRE, "")`: delete every import-statement span. -/
def removeImports (s : Str) : Str :=
  applyEdits s 0 ((importSpans s).map (fun pr => (pr.1, pr.2, ([] : Str))))

/-! ### `getTransitiveDependencies` (plugin lines 33–53) -/

/-- `dependencyGraph.get(current)`, pushing nothing when absent. -/
def lookupDeps (g : List (Str × List Str)) (k : Str) : List Str :=
  match aget g k with
  | some l => l
  | none => []

/-- The breadth-first worklist loop with its visited set (`resolved`).
The fuel only scaffolds structural recursion: `bfsBound` strictly
exceeds the total number of loop iterations (each iteration pops one
queue entry, and entries are pushed only on the first visit of a key,
at most its dependency-list length in total), so the `0` case is never
reached and the function computes exactly the JavaScript loop. -/
def bfsFuel (g : List (Str × List Str)) : Nat → List Str → List Str → List Str
  | 0, resolved, _ => resolved
  | fuel + 1, resolved, queue =>
    match queue with
    | [] => resolved
    | c :: rest =>
      if c ∈ resolved then bfsFuel g fuel resolved rest
      else bfsFuel g fuel (resolved ++ [c]) (rest ++ lookupDeps g c)

/-- Adequate fuel for `bfsFuel`: initial queue length plus the total
size of all dependency lists, plus one. -/
def bfsBound (g : List (Str × List Str)) (queue : List Str) : Nat :=
  queue.length + (g.map (fun e => e.2.length)).sum + 1

/-- `getTransitiveDependencies` (plugin lines 33–53): worklist closure
from the entry points, visited-set guarded. -/
def getTransitiveDependencies (entryPoints : List Str)
    (dependencyGraph : List (Str × List Str)) : List Str :=
  bfsFuel dependencyGraph (bfsBound dependencyGraph entryPoints) [] entryPoints

/-! ### The transform: fence processing, blocks, registry -/

/-- The reserved virtual prefix `virtual:inline-svelte/`. -/
def VIRT : Str := S "virtual:inline-svelte/"

/-- The resolved internal prefix (`"\0" + VIRT`). -/
def RSLV : Str := '\x00' :: VIRT

/-- The virtual path of a hash: `\x60${VIRT}${hash}.js\x60`. -/
def virtOf (h : Str) : Str := VIRT ++ h ++ S ".js"

/-- Shared registry state threaded through component and block
processing: hash-to-local-name map, the process-wide markup cache and
the accumulated import statements. -/
structure RegState where
  hashToLocal : List (Str × Str)
  cache : List (Str × Str)
  importsToAdd : Str
deriving Repr, DecidableEq

/-- The record of one `registerModule` step (plugin lines 193–209 and
264–279), for one resolved markup. -/
structure ModuleReg where
  raw : Str
  resolved : Str
  hash : Str
  virt : Str
  localName : Str
  fresh : Bool
  importAdded : Str
deriving Repr, DecidableEq

/-- The namespace-import binding emitted for a block with module-script
exports (plugin line 205). -/
def nsImportFor (h : Str) : Str :=
  S "import * as __InlineNS_" ++ h ++ S " from " ++ [sqc] ++ virtOf h ++ [sqc] ++
  S ";\nconst Inline_" ++ h ++ S "=Object.assign(__InlineNS_" ++ h ++
  S ".default, __InlineNS_" ++ h ++ S ");\n"

/-- The plain default-import binding (plugin line 207). -/
def plainImportFor (h : Str) : Str :=
  S "import Inline_" ++ h ++ S " from " ++ [sqc] ++ virtOf h ++ [sqc] ++ S ";\n"

/-- The dedup-and-register step shared by the component loop (plugin
lines 193–209) and the block loop (lines 264–279). -/
def registerModule (st : RegState) (resolved raw : Str) : RegState × ModuleReg :=
  let h := hash8 resolved
  let virt := virtOf h
  match aget st.hashToLocal h with
  | some l =>
    (st, ⟨raw, resolved, h, virt, l, false, []⟩)
  | none =>
    let localName := S "Inline_" ++ h
    let cache2 := if (aget st.cache virt).isSome then st.cache
                  else st.cache ++ [(virt, resolved)]
    let imp := if moduleScriptExportTest raw then nsImportFor h else plainImportFor h
    (⟨aset st.hashToLocal h localName, cache2, st.importsToAdd ++ imp⟩,
     ⟨raw, resolved, h, virt, localName, true, imp⟩)

/-- One match of the fence's component-declaration regex
(`globalDefRE`): full span, name and the backtick-delimited group. -/
structure GDefMatch where
  start : Nat
  matchEnd : Nat
  name : Str
  tick : Str
deriving Repr, DecidableEq

/-- Line-start positions, the multiline `^` anchor. -/
def lineStartAt (s : Str) (p : Nat) : Bool :=
  match p with
  | 0 => true
  | j + 1 => isLineTerm (s.getD j ' ')

/-- One attempt of `globalDefRE` at `i` (the `^` anchor checked by the
caller): `(matchEnd, name, group2-with-backticks)`. -/
def gdefMatchAt (s : Str) (i : Nat) : Option (Nat × Str × Str) :=
  if litAt s (S "const") i then
    let w := runEnd isJsWs s (i + 5)
    if i + 5 < w then
      let ne := runEnd isNameChar s w
      if w < ne then
        let w2 := runEnd isJsWs s ne
        if isCharAt s w2 '=' then
          let w3 := runEnd isJsWs s (w2 + 1)
          match tplTagAt s w3 with
          | some tl =>
            let w4 := runEnd isJsWs s (w3 + tl)
            if isCharAt s w4 btick then
              match idxFrom s (S "\x60") (w4 + 1) with
              | some e => some (e + 1, (s.take ne).drop w, (s.take (e + 1)).drop w4)
              | none => none
            else none
          | none => none
        else none
      else none
    else none
  else none

/-- All `globalDefRE` matches of the fence content (the `g`+`m` flags). -/
def gdefMatches (s : Str) : List GDefMatch :=
  gscan (fun p =>
    if lineStartAt s p then
      (gdefMatchAt s p).map (fun r => (r.1, some (⟨p, r.1, r.2.1, r.2.2⟩ : GDefMatch)))
    else none) s.length

/-- State of the declaration-extent scan: the three nesting depths and
the captured end position, if already found. -/
structure DeclScan where
  bd : Int
  kd : Int
  pd : Int
  found : Option Nat
deriving Repr, DecidableEq

/-- One character step of the extent scan (plugin lines 119–131). -/
def declStep (s : Str) (st : DeclScan) (i : Nat) : DeclScan :=
  match st.found with
  | some _ => st
  | none =>
    let c := s.getD i ' '
    if c = '\x7b' then { st with bd := st.bd + 1 }
    else if c = '\x7d' then { st with bd := st.bd - 1 }
    else if c = '[' then { st with kd := st.kd + 1 }
    else if c = ']' then { st with kd := st.kd - 1 }
    else if c = '(' then { st with pd := st.pd + 1 }
    else if c = ')' then { st with pd := st.pd - 1 }
    else if c = ';' && st.bd = 0 && st.kd = 0 && st.pd = 0 then
      { st with found := some (i + 1) }
    else st

/-- The character-by-character extent scan of a plain declaration
(plugin lines 115–131): nested depths tracked, stopping past the first
top-level `;`. -/
def declScanLoop (s : Str) (start : Nat) : Option Nat :=
  ((List.range' start (s.length - start)).foldl (declStep s) ⟨0, 0, 0, none⟩).found

/-- The extent of a plain declaration starting at `start` (plugin lines
114–135): past the first top-level `;`, else to the next newline, else
to the end of the text. -/
def findDeclEnd (s : Str) (start : Nat) : Nat :=
  match declScanLoop s start with
  | some e => e
  | none =>
    match idxFrom s (S "\n") start with
    | some n => n
    | none => s.length

/-- One attempt of `startOfDeclRegex = /^(?:const|let|var)\s+([a-zA-Z0-9_$]+)/`
at `i`: `(matchEnd, name)`. -/
def declHeadAt (s : Str) (i : Nat) : Option (Nat × Str) :=
  let kwLen := if litAt s (S "const") i then some 5
               else if litAt s (S "let") i then some 3
               else if litAt s (S "var") i then some 3
               else none
  match kwLen with
  | some kl =>
    let w := runEnd isJsWs s (i + kl)
    if i + kl < w then
      let ne := runEnd isNameChar s w
      if w < ne then some (ne, (s.take ne).drop w) else none
    else none
  | none => none

/-- The plain-declaration extraction loop (plugin lines 108–139), with
its manual `lastIndex` jumps to each declaration's computed extent:
the emitted `(name, definition)` records in match order. -/
def extractDeclRecords (s : Str) (compNames : List Str) : List (Str × Str) :=
  gscan (fun p =>
    if lineStartAt s p then
      match declHeadAt s p with
      | some (me, nm) =>
        if compNames.contains nm then some (me, none)
        else
          let e := findDeclEnd s p
          some (e, some (nm, jsTrim ((s.take e).drop p)))
      | none => none
    else none) s.length

/-- `globalVarDefs`: the extracted records entered into the map
(`Map.set` replace-or-append; empty definitions skipped). -/
def extractDecls (s : Str) (compNames : List Str) : List (Str × Str) :=
  (extractDeclRecords s compNames).foldl
    (fun acc pr => if pr.2 = [] then acc else aset acc pr.1 pr.2) []

/-! ### Sorting (`Array.prototype.sort`, modelled as a stable insertion
sort, which matches the engine's comparator-sort on the small arrays
arising here) -/

/-- Insert `x` into `l` before the first element `y` with `cmp x y < 0`. -/
def insertCmp (cmp : α → α → Int) (x : α) : List α → List α
  | [] => [x]
  | y :: ys => if cmp x y < 0 then x :: y :: ys else y :: insertCmp cmp x ys

/-- Stable comparator sort. -/
def jsSort (cmp : α → α → Int) (l : List α) : List α :=
  l.foldl (fun acc x => insertCmp cmp x acc) []

/-- `Array.prototype.indexOf` over a name list (`-1` when absent). -/
def idxOfName (l : List Str) (x : Str) : Int :=
  match l.findIdx? (· == x) with
  | some i => (i : Int)
  | none => -1

/-- The component comparator (plugin lines 160–166). -/
def componentCmp (depGraph : List (Str × List Str)) (allGlobalNames : List Str)
    (a b : Str) : Int :=
  let depsA := getTransitiveDependencies [a] depGraph
  if depsA.contains b then 1
  else
    let depsB := getTransitiveDependencies [b] depGraph
    if depsB.contains a then -1
    else idxOfName allGlobalNames a - idxOfName allGlobalNames b

/-- The sorted component list (plugin line 160). -/
def sortComponents (globalComponentNames : List Str)
    (depGraph : List (Str × List Str)) (allGlobalNames : List Str) : List Str :=
  jsSort (componentCmp depGraph allGlobalNames) globalComponentNames

/-- The declaration-order comparator used for dependency lists
(plugin lines 177–179 and 243–245). -/
def idxCmp (allGlobalNames : List Str) (a b : Str) : Int :=
  idxOfName allGlobalNames a - idxOfName allGlobalNames b

/-- The dependency-graph construction (plugin lines 148–158). -/
def buildDepGraph (allGlobalNames globalComponentNames : List Str)
    (nameToMarkup globalVarDefs : List (Str × Str)) : List (Str × List Str) :=
  allGlobalNames.map (fun name =>
    let content := if globalComponentNames.contains name then
        (aget nameToMarkup name).getD []
      else (aget globalVarDefs name).getD []
    (name, allGlobalNames.filter (fun dep => dep != name && wordBoundaryTest content dep)))

/-! ### The per-file transform -/

/-- File-eligibility extension test, `/\.(c?[tj]sx?)$/`. -/
def scriptExtTest (id : Str) : Bool :=
  [S ".ts", S ".js", S ".tsx", S ".jsx", S ".cts", S ".cjs", S ".ctsx", S ".cjsx"].any
    (fun e => e.isSuffixOf id)

/-- `isUserSource` (plugin line 18). -/
def isUserSource (id : Str) : Bool :=
  !containsSub id (S "/node_modules/") && scriptExtTest id

/-- Result record for one processed shared component. -/
structure CompResult where
  name : Str
  raw : Str
  resolved : Str
  reg : ModuleReg
deriving Repr, DecidableEq

/-- Result record for one processed inline block. -/
structure BlockResult where
  start : Nat
  matchEnd : Nat
  raw : Str
  injectedNames : List Str
  scriptToInject : Str
  resolved : Str
  reg : ModuleReg
deriving Repr, DecidableEq

/-- The data extracted from the definitions fence. -/
structure FenceInfo where
  fence : FenceMatch
  fenceContent : Str
  componentMatches : List GDefMatch
  globalComponentNames : List Str
  nonComponentCode : Str
  globalVarDefs : List (Str × Str)
  importStatements : List Str
  allGlobalNames : List Str
  nameToMarkup : List (Str × Str)
  depGraph : List (Str × List Str)
  sortedComponentNames : List Str
deriving Repr, DecidableEq

/-- Full instrumented result of one `transform` invocation. -/
structure TransformOut where
  cache : List (Str × Str)
  result : Option Str
  importsToAdd : Str
  hoistedCode : Str
  globalImportsForTpl : Str
  fenceInfo : Option FenceInfo
  comps : List CompResult
  blocks : List BlockResult
  edits : List (Nat × Nat × Str)
deriving Repr, DecidableEq

/-- State of the shared-component loop (plugin lines 168–214). -/
structure CompLoopState where
  reg : RegState
  componentInfo : List (Str × (Str × Str))
  globalImportsForTpl : Str
  hoisted : Str
  comps : List CompResult
deriving Repr, DecidableEq

/-- The shared-injection text of one component (plugin lines 176–188). -/
def compScriptToInject (sortedDeps : List Str) (globalComponentNames : List Str)
    (componentInfo : List (Str × (Str × Str))) (globalVarDefs : List (Str × Str)) : Str :=
  sortedDeps.foldl (fun acc depName =>
    if globalComponentNames.contains depName then
      match aget componentInfo depName with
      | some info => acc ++ S "import " ++ depName ++ S " from " ++ [sqc] ++
          info.2 ++ [sqc] ++ S ";\n"
      | none => acc
    else
      match aget globalVarDefs depName with
      | some dfn => acc ++ S "\n" ++ dfn
      | none => acc) []

/-- One iteration of the shared-component loop (plugin lines 170–214). -/
def compStep (globalComponentNames : List Str) (globalVarDefs : List (Str × Str))
    (nameToMarkup : List (Str × Str)) (depGraph : List (Str × List Str))
    (allGlobalNames : List Str) (importCode : Str) (st : CompLoopState)
    (compName : Str) : CompLoopState :=
  let rawMarkup := (aget nameToMarkup compName).getD []
  let allDeps := (getTransitiveDependencies [compName] depGraph).erase compName
  let sortedDeps := jsSort (idxCmp allGlobalNames) allDeps
  let scriptToInject := compScriptToInject sortedDeps globalComponentNames
      st.componentInfo globalVarDefs
  let markupWithImports := applySharedCode rawMarkup importCode
  let markupWithDeps := applySharedCode markupWithImports scriptToInject
  let pr := registerModule st.reg markupWithDeps rawMarkup
  ⟨pr.1,
   aset st.componentInfo compName (pr.2.localName, pr.2.virt),
   st.globalImportsForTpl ++ S "import " ++ compName ++ S " from " ++ [sqc] ++
     pr.2.virt ++ [sqc] ++ S ";\n",
   st.hoisted ++ S "const " ++ compName ++ S " = " ++ pr.2.localName ++ S ";\n",
   st.comps ++ [⟨compName, rawMarkup, markupWithDeps, pr.2⟩]⟩

/-- The shared-component loop (plugin lines 170–214), in sorted order. -/
def processComps (globalComponentNames : List Str) (globalVarDefs : List (Str × Str))
    (nameToMarkup : List (Str × Str)) (depGraph : List (Str × List Str))
    (allGlobalNames : List Str) (importCode : Str) (st : CompLoopState) :
    List Str → CompLoopState
  | [] => st
  | compName :: restNames =>
    processComps globalComponentNames globalVarDefs nameToMarkup depGraph
      allGlobalNames importCode
      (compStep globalComponentNames globalVarDefs nameToMarkup depGraph
        allGlobalNames importCode st compName)
      restNames

/-- Context shared by all block-processing steps. -/
structure BlockCtx where
  globalComponentNames : List Str
  globalVarDefs : List (Str × Str)
  allGlobalNames : List Str
  depGraph : List (Str × List Str)
  globalImportsForTpl : Str
  fenceContent : Str
  fence : Option FenceMatch
deriving Repr, DecidableEq

/-- State of the block loop. -/
structure BlockLoopState where
  reg : RegState
  blocks : List BlockResult
deriving Repr, DecidableEq

/-- The per-block shared-definition injection loop (plugin lines
247–257): names injected and the appended declaration text. -/
def blockInjected (sortedDeps : List Str) (globalComponentNames : List Str)
    (globalVarDefs : List (Str × Str)) (existingScriptContent : Str) :
    List Str × Str :=
  sortedDeps.foldl (fun acc name =>
    if globalComponentNames.contains name then acc
    else if declaredTest existingScriptContent name then acc
    else
      match aget globalVarDefs name with
      | some dfn => (acc.1 ++ [name], acc.2 ++ S "\n" ++ dfn)
      | none => acc) ([], [])

/-- Processing of one inline block (plugin lines 235–283). -/
def processBlock (ctx : BlockCtx) (code : Str) (st : BlockLoopState)
    (m : TplMatch) : BlockLoopState :=
  let rawMarkup := tplRaw code m
  let directDeps := ctx.allGlobalNames.filter (fun n => wordBoundaryTest rawMarkup n)
  let allDeps := getTransitiveDependencies directDeps ctx.depGraph
  let existingScriptContent := firstScriptContent rawMarkup
  let sortedDeps := jsSort (idxCmp ctx.allGlobalNames) allDeps
  let inj := blockInjected sortedDeps ctx.globalComponentNames ctx.globalVarDefs
      existingScriptContent
  let scriptToInject := ctx.globalImportsForTpl ++ inj.2
  let fenceImports := joinSep (S "\n") (importMatchesStr ctx.fenceContent)
  let markupWithFenceCode := applySharedCode rawMarkup fenceImports
  let markupWithGlobals := applySharedCode markupWithFenceCode scriptToInject
  let pr := registerModule st.reg markupWithGlobals rawMarkup
  ⟨pr.1, st.blocks ++
    [⟨m.start, m.matchEnd, rawMarkup, inj.1, scriptToInject, markupWithGlobals, pr.2⟩]⟩

/-- The block loop (plugin lines 225–284), skipping matches inside the
fence span. -/
def processBlocks (ctx : BlockCtx) (code : Str) (st : BlockLoopState) :
    List TplMatch → BlockLoopState
  | [] => st
  | m :: ms =>
    if (match ctx.fence with
        | some f => decide (f.start ≤ m.start) && decide (m.start < f.matchEnd)
        | none => false) then
      processBlocks ctx code st ms
    else processBlocks ctx code (processBlock ctx code st m) ms

/-- Full match text of a `globalDefRE` match. -/
def gdefFull (s : Str) (m : GDefMatch) : Str := (s.take m.matchEnd).drop m.start

/-- `tempFenceCode` (plugin lines 216–219): each component match's full
text removed by first-literal-occurrence replacement. -/
def tempFenceCodeOf (fenceContent : Str) (ms : List GDefMatch) : Str :=
  ms.foldl (fun acc m => replaceFirstOcc acc (gdefFull fenceContent m) []) fenceContent

/-- Sort an edit list by start offset (stable comparator sort). -/
def sortEdits (l : List (Nat × Nat × Str)) : List (Nat × Nat × Str) :=
  jsSort (fun a b => (a.1 : Int) - (b.1 : Int)) l

/-- All values computed from the definitions fence before the component
loop (plugin lines 96–166). -/
structure FencePre where
  fenceContent : Str
  componentMatches : List GDefMatch
  globalComponentNames : List Str
  nonComponentCode : Str
  globalVarDefs : List (Str × Str)
  importStatements : List Str
  hoisted1 : Str
  allGlobalNames : List Str
  nameToMarkup : List (Str × Str)
  depGraph : List (Str × List Str)
  sortedComponentNames : List Str
  importCode : Str
deriving Repr, DecidableEq

/-- Fence preprocessing (plugin lines 96–166). -/
def fencePre (code : Str) (f : FenceMatch) : FencePre :=
  let fenceContent := fenceContentOf code f
  let componentMatches := gdefMatches fenceContent
  let globalComponentNames := componentMatches.foldl (fun s m => sadd s m.name) []
  let nonComponentCode := jsTrim (applyEdits fenceContent 0
    (componentMatches.map (fun m => (m.start, m.matchEnd, ([] : Str)))))
  let globalVarDefs := extractDecls nonComponentCode globalComponentNames
  let importStatements := importMatchesStr nonComponentCode
  let allGlobalNames := globalComponentNames ++ globalVarDefs.map (fun e => e.1)
  let nameToMarkup := componentMatches.foldl
    (fun mp m => aset mp m.name ((m.tick.drop 1).dropLast)) []
  let depGraph := buildDepGraph allGlobalNames globalComponentNames
    nameToMarkup globalVarDefs
  ⟨fenceContent, componentMatches, globalComponentNames, nonComponentCode,
   globalVarDefs, importStatements, joinSep (S "\n") importStatements ++ S "\n",
   allGlobalNames, nameToMarkup, depGraph,
   sortComponents globalComponentNames depGraph allGlobalNames,
   joinSep (S "\n") importStatements⟩

/-- The fence-present branch of the transform (plugin lines 96–291),
generic over the precomputed fence data. -/
def withFenceCore (cache0 : List (Str × Str)) (code : Str) (f : FenceMatch)
    (P : FencePre) : TransformOut :=
  let cst := processComps P.globalComponentNames P.globalVarDefs P.nameToMarkup
    P.depGraph P.allGlobalNames P.importCode
    ⟨⟨[], cache0, []⟩, [], [], P.hoisted1, []⟩ P.sortedComponentNames
  let hoisted2 := cst.hoisted ++
    jsTrim (removeImports (tempFenceCodeOf P.fenceContent P.componentMatches))
  let ctx : BlockCtx := ⟨P.globalComponentNames, P.globalVarDefs, P.allGlobalNames,
    P.depGraph, cst.globalImportsForTpl, P.fenceContent, some f⟩
  let bst := processBlocks ctx code ⟨cst.reg, []⟩ (tplMatches code)
  let edits := sortEdits ((f.start, f.matchEnd, ([] : Str)) ::
    bst.blocks.map (fun b => (b.start, b.matchEnd, b.reg.localName)))
  ⟨bst.reg.cache,
   some (bst.reg.importsToAdd ++ (hoisted2 ++ (S "\n" ++ applyEdits code 0 edits))),
   bst.reg.importsToAdd, hoisted2, cst.globalImportsForTpl,
   some ⟨f, P.fenceContent, P.componentMatches, P.globalComponentNames,
     P.nonComponentCode, P.globalVarDefs, P.importStatements, P.allGlobalNames,
     P.nameToMarkup, P.depGraph, P.sortedComponentNames⟩,
   cst.comps, bst.blocks, edits⟩

/-- The fence-present branch of the transform (plugin lines 96–291). -/
def transformWithFence (cache0 : List (Str × Str)) (code : Str) (f : FenceMatch) :
    TransformOut :=
  withFenceCore cache0 code f (fencePre code f)

/-- The fence-absent branch of the transform (plugin lines 224–293). -/
def transformNoFence (cache0 : List (Str × Str)) (code : Str) : TransformOut :=
  let ctx : BlockCtx := ⟨[], [], [], [], [], [], none⟩
  let bst := processBlocks ctx code ⟨⟨[], cache0, []⟩, []⟩ (tplMatches code)
  match bst.blocks with
  | [] => ⟨bst.reg.cache, none, [], [], [], none, [], [], []⟩
  | _ :: _ =>
    ⟨bst.reg.cache,
     some (bst.reg.importsToAdd ++ (S "\n" ++ applyEdits code 0
       (bst.blocks.map (fun b => (b.start, b.matchEnd, b.reg.localName))))),
     bst.reg.importsToAdd, [], [], none, [], bst.blocks,
     bst.blocks.map (fun b => (b.start, b.matchEnd, b.reg.localName))⟩

/-- The `transform` hook (plugin lines 80–294), instrumented: alongside
the returned cache and rewritten code, the per-fence and per-unit
records used by the theorems are exposed. -/
def transformFull (cache0 : List (Str × Str)) (code id : Str) : TransformOut :=
  if !isUserSource id then ⟨cache0, none, [], [], [], none, [], [], []⟩
  else
    match fenceFind code with
    | some f => transformWithFence cache0 code f
    | none => transformNoFence cache0 code

/-- The host-facing `transform` result: new cache and optional output. -/
def transform (cache0 : List (Str × Str)) (code id : Str) :
    List (Str × Str) × Option Str :=
  let out := transformFull cache0 code id
  (out.cache, out.result)

/-- A sequence of transform invocations threading the process-wide cache. -/
def runTransforms (cache0 : List (Str × Str)) : List (Str × Str) → List (Str × Str)
  | [] => cache0
  | (code, id) :: rest => runTransforms (transformFull cache0 code id).cache rest

/-- All module registrations of one transform run, components first. -/
def unitRegs (out : TransformOut) : List ModuleReg :=
  out.comps.map (fun c => c.reg) ++ out.blocks.map (fun b => b.reg)

/-! ### The virtual-module protocol (plugin lines 296–309) -/

/-- `resolveId` (plugin lines 296–298). -/
def resolveId (id : Str) : Option Str :=
  if VIRT.isPrefixOf id then some (RSLV ++ id.drop VIRT.length) else none

/-- `load` (plugin lines 300–309); the Svelte compiler is the opaque
collaborator `compile : markup → filename → code` (an absent cache entry
makes the real hook fail, modelled as `none`). -/
def load (compile : Str → Str → Str) (cache : List (Str × Str)) (id : Str) :
    Option Str :=
  if RSLV.isPrefixOf id then
    match aget cache (VIRT ++ id.drop RSLV.length) with
    | some markup => some (compile markup id)
    | none => none
  else none

/-! ### Specification-side notions used by the theorems -/

/-- Textual reachability in a dependency graph: the names reachable from
the seed set along dependency edges (seeds included). -/
inductive Reach (g : List (Str × List Str)) (seeds : List Str) : Str → Prop
  | seed : ∀ {x}, x ∈ seeds → Reach g seeds x
  | step : ∀ {y d}, Reach g seeds y → d ∈ lookupDeps g y → Reach g seeds d

/-- Lowercase hexadecimal digit. -/
def isHexLower (c : Char) : Bool :=
  ('0' ≤ c && c ≤ '9') || ('a' ≤ c && c ≤ 'f')

/-- One character's effect on the `(brace, bracket, paren)` depth triple. -/
def depthStep (d : Int × Int × Int) (c : Char) : Int × Int × Int :=
  if c = '\x7b' then (d.1 + 1, d.2.1, d.2.2)
  else if c = '\x7d' then (d.1 - 1, d.2.1, d.2.2)
  else if c = '[' then (d.1, d.2.1 + 1, d.2.2)
  else if c = ']' then (d.1, d.2.1 - 1, d.2.2)
  else if c = '(' then (d.1, d.2.1, d.2.2 + 1)
  else if c = ')' then (d.1, d.2.1, d.2.2 - 1)
  else d

/-- The nesting depths accumulated over `s[start..i)`. -/
def depthsAt (s : Str) (start i : Nat) : Int × Int × Int :=
  ((s.take i).drop start).foldl depthStep (0, 0, 0)

/-- A semicolon at `i` whose accumulated depths from `start` are all
zero: the declarative description of a top-level statement terminator. -/
def topSemiAt (s : Str) (start i : Nat) : Bool :=
  isCharAt s i ';' && (depthsAt s start i == (0, 0, 0))

/-- An emitted ordering violates the topological requirement if some
name is emitted before another name it transitively depends on. -/
def topoViolation (out : List Str) (g : List (Str × List Str)) : Bool :=
  out.enum.any (fun pr =>
    (out.drop (pr.1 + 1)).any (fun b =>
      pr.2 != b && (getTransitiveDependencies [pr.2] g).contains b))

/-- The two-name cyclic dependency graph of the cycle scenarios. -/
def cycleGraph : List (Str × List Str) := [(S "A", [S "B"]), (S "B", [S "A"])]

/-- The worklist potential of the closure loop: queue length plus the
dependency-list lengths of the unvisited keys.  It strictly decreases
each iteration, so any fuel above it makes `bfsFuel` run to completion. -/
def bfsPotential (g : List (Str × List Str)) (resolved queue : List Str) : Nat :=
  queue.length +
    ∑ k in ((g.map Prod.fst).toFinset \ resolved.toFinset), (lookupDeps g k).length

/-- Invariant of the registry state: every hash-to-local entry binds
`Inline_<hash>` and owns a cache entry for its virtual path, and the
cache keys are pairwise distinct. -/
def RegOk (st : RegState) : Prop :=
  (∀ e ∈ st.hashToLocal,
      e.2 = S "Inline_" ++ e.1 ∧ (aget st.cache (virtOf e.1)).isSome = true) ∧
  (akeys st.cache).Nodup

/-- Well-formedness of one module registration. -/
def MRegOk (r : ModuleReg) : Prop :=
  r.hash = hash8 r.resolved ∧
  r.localName = S "Inline_" ++ r.hash ∧
  r.virt = virtOf r.hash ∧
  r.hash.length = 8 ∧
  (∀ c ∈ r.hash, isHexLower c = true) ∧
  (r.fresh = true → r.importAdded =
    (if moduleScriptExportTest r.raw then nsImportFor r.hash else plainImportFor r.hash)) ∧
  (r.fresh = false → r.importAdded = [])

/-- Registry evolution: cache entries persist and the accumulated
text of imports only grows on the right. -/
def RegLe (st st2 : RegState) : Prop :=
  (∀ k v, aget st.cache k = some v → aget st2.cache k = some v) ∧
  (∃ t, st2.importsToAdd = st.importsToAdd ++ t)

/-- A registration as seen from a (possibly later) registry state. -/
def UnitOk (st : RegState) (r : ModuleReg) : Prop :=
  MRegOk r ∧ (aget st.cache r.virt).isSome = true ∧
  r.importAdded <:+: st.importsToAdd

/-- Shape facts of one processed block, as recorded by the block loop:
its registration carries its resolved and raw markup, every injected
shared name failed the local-declaration test against the first script
block's content, and its span is one of the file's template matches. -/
def BlockShape (code : Str) (b : BlockResult) : Prop :=
  b.reg.resolved = b.resolved ∧ b.reg.raw = b.raw ∧
  (∀ n ∈ b.injectedNames, declaredTest (firstScriptContent b.raw) n = false) ∧
  ∃ m : TplMatch, b.start = m.start ∧ b.matchEnd = m.matchEnd ∧ b.raw = tplRaw code m


/-! ## Theorems -/

/-! ### Generic scanning lemmas -/

theorem scanFirst_step (f : Nat → Option α) (n i : Nat) :
    scanFirst f n i =
      if i < n then
        match f i with
        | some a => some (i, a)
        | none => scanFirst f n (i + 1)
      else none := by
  unfold scanFirst
  by_cases h : i < n
  · have hm : n - i = (n - (i + 1)) + 1 := by omega
    rw [hm, List.range'_succ, List.findSome?_cons]
    cases hf : f i <;> simp [h, hf]
  · have hm : n - i = 0 := by omega
    simp [hm, h]

theorem scanFirst_eq_none {f : Nat → Option α} {n i : Nat} :
    scanFirst f n i = none ↔ ∀ k, i ≤ k → k < n → f k = none := by
  unfold scanFirst
  rw [List.findSome?_eq_none]
  constructor
  · intro h k hik hkn
    have hmem : k ∈ List.range' i (n - i) := by
      rw [List.mem_range'_1]
      omega
    have := h k hmem
    cases hf : f k <;> simp [hf] at this ⊢
  · intro h k hmem
    rw [List.mem_range'_1] at hmem
    rw [h k hmem.1 (by omega)]
    rfl

theorem scanFirst_some_spec {f : Nat → Option α} {n : Nat} :
    ∀ {i j : Nat} {a : α}, scanFirst f n i = some (j, a) →
      i ≤ j ∧ j < n ∧ f j = some a ∧ ∀ k, i ≤ k → k < j → f k = none := by
  have key : ∀ (m : Nat), ∀ {i j : Nat} {a : α}, n - i = m →
      scanFirst f n i = some (j, a) →
      i ≤ j ∧ j < n ∧ f j = some a ∧ ∀ k, i ≤ k → k < j → f k = none := by
    intro m
    induction m with
    | zero =>
      intro i j a h0 hs
      rw [scanFirst_step] at hs
      simp [show ¬ i < n by omega] at hs
    | succ m ih =>
      intro i j a h0 hs
      rw [scanFirst_step] at hs
      have hin : i < n := by
        by_contra hc
        simp [hc] at hs
      simp only [if_pos hin] at hs
      cases hf : f i with
      | some b =>
        rw [hf] at hs
        simp only [Option.some_inj, Prod.mk.injEq] at hs
        obtain ⟨rfl, rfl⟩ := hs
        exact ⟨le_refl _, hin, hf, fun k hik hki =>
          absurd (lt_of_le_of_lt hik hki) (lt_irrefl _)⟩
      | none =>
        rw [hf] at hs
        obtain ⟨h1, h2, h3, h4⟩ := ih (by omega) hs
        refine ⟨by omega, h2, h3, fun k hik hkj => ?_⟩
        rcases Nat.eq_or_lt_of_le hik with rfl | hlt
        · exact hf
        · exact h4 k hlt hkj
  intro i j a
  exact key (n - i) rfl

/-! ### Association-list lemmas -/

theorem aget_append_left {m l : List (Str × α)} {k : Str} {v : α}
    (h : aget m k = some v) : aget (m ++ l) k = some v := by
  simp only [aget] at h ⊢
  rw [List.find?_append]
  cases hf : m.find? (fun e => e.1 == k) with
  | none => rw [hf] at h; simp at h
  | some e => rw [hf] at h; simp [hf, Option.orElse, h]

theorem aget_none_iff {m : List (Str × α)} {k : Str} :
    aget m k = none ↔ k ∉ akeys m := by
  simp only [aget, akeys, Option.map_eq_none', List.find?_eq_none, List.mem_map,
    beq_iff_eq]
  constructor
  · rintro h ⟨e, hmem, rfl⟩
    exact h e hmem rfl
  · rintro h e hmem rfl
    exact h ⟨e, hmem, rfl⟩

theorem aget_append_singleton_self {m : List (Str × α)} {k : Str} {v : α}
    (h : aget m k = none) : aget (m ++ [(k, v)]) k = some v := by
  simp only [aget] at h ⊢
  rw [List.find?_append]
  cases hf : m.find? (fun e => e.1 == k) with
  | none => simp [Option.orElse, List.find?]
  | some e => rw [hf] at h; simp at h

theorem akeys_append_singleton {m : List (Str × α)} {k : Str} {v : α} :
    akeys (m ++ [(k, v)]) = akeys m ++ [k] := by
  simp [akeys]

theorem akeys_nodup_append {m : List (Str × α)} {k : Str} {v : α}
    (hnd : (akeys m).Nodup) (h : aget m k = none) :
    (akeys (m ++ [(k, v)])).Nodup := by
  rw [akeys_append_singleton]
  rw [aget_none_iff] at h
  simp [List.nodup_append, hnd, h]

theorem acount_eq_zero {m : List (Str × α)} {k : Str} (h : k ∉ akeys m) :
    acount m k = 0 := by
  simp only [acount, List.length_eq_zero]
  rw [List.filter_eq_nil]
  intro e hmem
  simp only [beq_iff_eq]
  intro hek
  exact h (hek ▸ List.mem_map_of_mem Prod.fst hmem)

theorem acount_eq_one {m : List (Str × α)} {k : Str} (hnd : (akeys m).Nodup)
    (h : (aget m k).isSome = true) : acount m k = 1 := by
  induction m with
  | nil => simp [aget] at h
  | cons e rest ih =>
    simp only [akeys, List.map_cons, List.nodup_cons] at hnd
    by_cases hek : e.1 = k
    · have hnot : k ∉ akeys rest := hek ▸ hnd.1
      simp only [acount, List.filter_cons, hek]
      have hz := @acount_eq_zero _ rest k hnot
      simp only [acount] at hz
      simp [hz, hek]
    · have hind : (aget rest k).isSome = true := by
        simp only [aget, List.find?_cons] at h
        have : (e.1 == k) = false := by simp [hek]
        rw [this] at h
        exact h
      have := ih hnd.2 hind
      simp only [acount, List.filter_cons] at this ⊢
      have hbeq : (e.1 == k) = false := by simp [hek]
      simp [hbeq, this]

theorem mem_aset {m : List (Str × α)} {k : Str} {v : α} {e : Str × α}
    (h : e ∈ aset m k v) : e = (k, v) ∨ e ∈ m := by
  induction m with
  | nil =>
    simp only [aset, List.mem_singleton] at h
    exact Or.inl h
  | cons e2 rest ih =>
    simp only [aset] at h
    by_cases hk : e2.1 = k
    · rw [show (e2.1 == k) = true by simp [hk], if_pos rfl] at h
      rcases List.mem_cons.mp h with h | h
      · exact Or.inl h
      · exact Or.inr (List.mem_cons_of_mem _ h)
    · rw [show (e2.1 == k) = false by simp [hk]] at h
      simp only [Bool.false_eq_true, if_false] at h
      rcases List.mem_cons.mp h with h | h
      · exact Or.inr (h ▸ List.mem_cons_self e2 rest)
      · rcases ih h with h2 | h2
        · exact Or.inl h2
        · exact Or.inr (List.mem_cons_of_mem _ h2)

theorem aget_aset_self {m : List (Str × α)} {k : Str} {v : α} :
    aget (aset m k v) k = some v := by
  induction m with
  | nil => simp [aset, aget, List.find?]
  | cons e rest ih =>
    simp only [aset]
    by_cases hk : e.1 = k
    · simp [hk, aget, List.find?]
    · have hbeq : (e.1 == k) = false := by simp [hk]
      simp only [hbeq, Bool.false_eq_true, if_false]
      simp only [aget, List.find?_cons, hbeq] at ih ⊢
      exact ih

/-! ### Permutation lemmas for the comparator sorts -/

theorem insertCmp_perm (cmp : α → α → Int) (x : α) (l : List α) :
    (insertCmp cmp x l).Perm (x :: l) := by
  induction l with
  | nil => simp [insertCmp]
  | cons y ys ih =>
    simp only [insertCmp]
    split
    · exact List.Perm.refl _
    · exact (List.Perm.cons y ih).trans (List.Perm.swap x y ys)

theorem foldl_insertCmp_perm (cmp : α → α → Int) (l : List α) :
    ∀ acc, (l.foldl (fun a x => insertCmp cmp x a) acc).Perm (acc ++ l) := by
  induction l with
  | nil => intro acc; simp
  | cons x xs ih =>
    intro acc
    simp only [List.foldl_cons]
    refine (ih (insertCmp cmp x acc)).trans ?_
    refine (List.Perm.append_right xs (insertCmp_perm cmp x acc)).trans ?_
    exact (@List.perm_middle _ x acc xs).symm

theorem jsSort_perm (cmp : α → α → Int) (l : List α) : (jsSort cmp l).Perm l := by
  simpa using foldl_insertCmp_perm cmp l []

/-! ### C9: the virtual-module protocol round trip -/

theorem prefix_append_drop {l p : Str} (h : l.isPrefixOf p = true) :
    l ++ p.drop l.length = p := by
  rw [List.isPrefixOf_iff_prefix] at h
  obtain ⟨t, rfl⟩ := h
  simp

/-- C9: a path starting with the reserved virtual prefix resolves to the
`"\0"`-prefixed internal identifier and every other path is declined;
`load` declines identifiers without the internal prefix; and for a
cached virtual path, `load ∘ resolveId` recovers exactly that cache key
and returns the external compiler's output for the cached markup. -/
theorem c9_virtual_roundtrip (p q r v : Str) (cache : List (Str × Str))
    (compile : Str → Str → Str)
    (hp : VIRT.isPrefixOf p = true) (hq : VIRT.isPrefixOf q = false)
    (hr : RSLV.isPrefixOf r = false) (hcv : aget cache p = some v) :
    resolveId p = some ('\x00' :: p) ∧
    resolveId q = none ∧
    load compile cache r = none ∧
    (resolveId p).bind (load compile cache) = some (compile v ('\x00' :: p)) := by
  have hkey : VIRT ++ p.drop VIRT.length = p := prefix_append_drop hp
  have hres : resolveId p = some ('\x00' :: p) := by
    simp only [resolveId, hp, if_pos]
    rw [RSLV]
    rw [List.cons_append, hkey]
  refine ⟨hres, ?_, ?_, ?_⟩
  · simp [resolveId, hq]
  · simp [load, hr]
  · have hpre : RSLV.isPrefixOf ('\x00' :: p) = true := by
      rw [RSLV]
      simp only [List.isPrefixOf_iff_prefix]
      exact List.cons_prefix_cons.mpr ⟨rfl, List.isPrefixOf_iff_prefix.mp hp⟩
    have hdrop : ('\x00' :: p).drop RSLV.length = p.drop VIRT.length := by
      rw [RSLV, List.length_cons, List.drop_succ_cons]
    rw [hres, Option.some_bind]
    unfold load
    rw [hpre]
    simp only [if_true]
    rw [hdrop, hkey, hcv]

theorem c9_virtual_roundtrip_witness :
    VIRT.isPrefixOf (VIRT ++ S "ab.js") = true ∧
    VIRT.isPrefixOf (S "/src/a.ts") = false ∧
    RSLV.isPrefixOf (S "/src/a.ts") = false ∧
    aget [(VIRT ++ S "ab.js", S "<h1/>")] (VIRT ++ S "ab.js") = some (S "<h1/>") ∧
    (resolveId (VIRT ++ S "ab.js") = some ('\x00' :: (VIRT ++ S "ab.js")) ∧
     resolveId (S "/src/a.ts") = none ∧
     load (fun m f => m ++ f) [(VIRT ++ S "ab.js", S "<h1/>")] (S "/src/a.ts") = none ∧
     (resolveId (VIRT ++ S "ab.js")).bind
         (load (fun m f => m ++ f) [(VIRT ++ S "ab.js", S "<h1/>")]) =
       some (S "<h1/>" ++ ('\x00' :: (VIRT ++ S "ab.js")))) :=
  ⟨by decide, by decide, by decide, by decide,
   c9_virtual_roundtrip (VIRT ++ S "ab.js") (S "/src/a.ts") (S "/src/a.ts")
     (S "<h1/>") [(VIRT ++ S "ab.js", S "<h1/>")] (fun m f => m ++ f)
     (by decide) (by decide) (by decide) (by decide)⟩

/-! ### C2: the injector and module-context scripts -/

/-- C2 counterexample: the injector's script regex only excludes the
`context="module"` attribute form, so for a markup whose only script is
a `<script module>` block — which the plugin's own
`moduleScriptExportRE` recognizes as a module script with exports — the
shared code is inserted right inside that module-context script block,
refuting "the shared code is never inserted inside a module-context
script block". -/
theorem c2_injector_counterexample :
    moduleScriptExportTest (S "<script module>export \x7b a \x7d;</script>") = true ∧
    applySharedCode (S "<script module>export \x7b a \x7d;</script>") (S "let x = 1;") =
      S "<script module>\nlet x = 1;\nexport \x7b a \x7d;</script>" := by
  constructor
  · decide
  · decide

/-- C2 amended: for nonempty shared code the injector inserts the code
immediately after the first `<script>` opening tag lacking a
`context="module"`/`context='module'` attribute (the only form the
regex excludes — a Svelte-5 `<script module>` tag counts as an
insertion target); when no such tag exists, it synthesizes a new script
region wrapping the code before the markup. -/
theorem c2_injector_amended (markup code : Str) (hc : code ≠ []) :
    (∃ i e, ciLitAt markup (S "<script") i = true ∧
      hasCtxModule markup (i + 7) = false ∧
      idxFrom markup (S ">") (i + 7) = some (e - 1) ∧
      (∀ k, k < i → scriptTagAt markup k = none) ∧
      applySharedCode markup code =
        markup.take e ++ S "\n" ++ code ++ S "\n" ++ markup.drop e) ∨
    ((∀ k, k < markup.length → scriptTagAt markup k = none) ∧
      applySharedCode markup code =
        S "<script>\n" ++ code ++ S "\n</script>\n" ++ markup) := by
  unfold applySharedCode
  rw [if_neg hc]
  cases hs : scanFirst (scriptTagAt markup) markup.length 0 with
  | none =>
    right
    rw [scanFirst_eq_none] at hs
    exact ⟨fun k hk => hs k (Nat.zero_le k) hk, rfl⟩
  | some pr =>
    left
    obtain ⟨i, e⟩ := pr
    obtain ⟨-, _, hfe, hbefore⟩ := scanFirst_some_spec hs
    refine ⟨i, e, ?_, ?_, ?_, fun k hk => hbefore k (Nat.zero_le k) hk, rfl⟩
    all_goals
      unfold scriptTagAt at hfe
      by_cases hm : (ciLitAt markup (S "<script") i && !hasCtxModule markup (i + 7)) = true
    · exact (Bool.and_eq_true ..).mp hm |>.1
    · rw [if_neg hm] at hfe; exact absurd hfe (by simp)
    · have := (Bool.and_eq_true ..).mp hm |>.2
      simpa using this
    · rw [if_neg hm] at hfe; exact absurd hfe (by simp)
    · rw [if_pos hm] at hfe
      cases hx : idxFrom markup (S ">") (i + 7) with
      | none => rw [hx] at hfe; simp at hfe
      | some j =>
        rw [hx] at hfe
        simp only [Option.map_some', Option.some_inj] at hfe
        rw [← hfe]
        simp
    · rw [if_neg hm] at hfe; exact absurd hfe (by simp)

theorem c2_injector_amended_witness :
    (S "let y;") ≠ ([] : Str) ∧
    ((∃ i e,
      ciLitAt (S "<script context=\x27module\x27>export \x7bz\x7d;</script><script>let a;</script>") (S "<script") i = true ∧
      hasCtxModule (S "<script context=\x27module\x27>export \x7bz\x7d;</script><script>let a;</script>") (i + 7) = false ∧
      idxFrom (S "<script context=\x27module\x27>export \x7bz\x7d;</script><script>let a;</script>") (S ">") (i + 7) = some (e - 1) ∧
      (∀ k, k < i → scriptTagAt (S "<script context=\x27module\x27>export \x7bz\x7d;</script><script>let a;</script>") k = none) ∧
      applySharedCode (S "<script context=\x27module\x27>export \x7bz\x7d;</script><script>let a;</script>") (S "let y;") =
        (S "<script context=\x27module\x27>export \x7bz\x7d;</script><script>let a;</script>").take e ++
          S "\n" ++ S "let y;" ++ S "\n" ++
          (S "<script context=\x27module\x27>export \x7bz\x7d;</script><script>let a;</script>").drop e) ∨
    ((∀ k, k < (S "<script context=\x27module\x27>export \x7bz\x7d;</script><script>let a;</script>").length →
        scriptTagAt (S "<script context=\x27module\x27>export \x7bz\x7d;</script><script>let a;</script>") k = none) ∧
      applySharedCode (S "<script context=\x27module\x27>export \x7bz\x7d;</script><script>let a;</script>") (S "let y;") =
        S "<script>\n" ++ S "let y;" ++ S "\n</script>\n" ++
          S "<script context=\x27module\x27>export \x7bz\x7d;</script><script>let a;</script>")) :=
  ⟨by decide,
   c2_injector_amended
     (S "<script context=\x27module\x27>export \x7bz\x7d;</script><script>let a;</script>")
     (S "let y;") (by decide)⟩

/-! ### C5 counterexample: the comparator sort is not topological -/

/-- C5 counterexample: with two shared components that reference each
other (`A` references `B`, `B` references `A`), `A` transitively
depends on `B` yet the sorted order emits `A` first — the claimed
property "if X transitively depends on Y then Y is emitted before X" is
violated (for mutually dependent components it is unsatisfiable). -/
theorem c5_topo_counterexample :
    sortComponents [S "A", S "B"] cycleGraph [S "A", S "B"] = [S "A", S "B"] ∧
    Reach cycleGraph [S "A"] (S "B") ∧
    topoViolation (sortComponents [S "A", S "B"] cycleGraph [S "A", S "B"])
      cycleGraph = true := by
  refine ⟨by decide, ?_, by decide⟩
  exact @Reach.step cycleGraph [S "A"] (S "A") (S "B")
    (@Reach.seed cycleGraph [S "A"] (S "A") (by simp)) (by decide)

/-! ### The SHA-1 digest shape -/

theorem length_hex8 (n : Nat) : (hex8 n).length = 8 := by
  simp [hex8]

theorem isHexLower_hexDigit (n : Nat) : isHexLower (hexDigit n) = true := by
  have h16 : n % 16 < 16 := Nat.mod_lt _ (by norm_num)
  unfold hexDigit
  set m := n % 16 with hm
  interval_cases m <;> decide

theorem length_sha1hex (s : Str) : (sha1hex s).length = 40 := by
  unfold sha1hex
  simp [List.length_append, length_hex8]

theorem hash8_length (s : Str) : (hash8 s).length = 8 := by
  simp [hash8, List.length_take, length_sha1hex]

theorem hash8_hex (s : Str) : ∀ c ∈ hash8 s, isHexLower c = true := by
  intro c hc
  have hmem : c ∈ sha1hex s := List.mem_of_mem_take hc
  unfold sha1hex at hmem
  simp only [hex8, List.mem_append, List.mem_map, List.mem_range] at hmem
  rcases hmem with ((((⟨i, _, rfl⟩ | ⟨i, _, rfl⟩) | ⟨i, _, rfl⟩) | ⟨i, _, rfl⟩) | ⟨i, _, rfl⟩) <;>
    exact isHexLower_hexDigit _

/-! ### C4: the transitive-closure computation -/

theorem lookupDeps_eq_nil {g : List (Str × List Str)} {c : Str}
    (hc : c ∉ g.map Prod.fst) : lookupDeps g c = [] := by
  have hfind : List.find? (fun e => e.1 == c) g = none := by
    apply List.find?_eq_none.mpr
    intro x hx
    simp only [beq_iff_eq]
    intro hxc
    exact hc (hxc ▸ List.mem_map_of_mem Prod.fst hx)
  simp [lookupDeps, aget, hfind]

theorem bfsFuel_sound {g : List (Str × List Str)} {seeds : List Str} :
    ∀ (fuel : Nat) (resolved queue : List Str),
    (∀ x ∈ resolved, Reach g seeds x) → (∀ x ∈ queue, Reach g seeds x) →
    ∀ x ∈ bfsFuel g fuel resolved queue, Reach g seeds x := by
  intro fuel
  induction fuel with
  | zero => intro resolved queue hr _ x hx; exact hr x hx
  | succ fuel ih =>
    intro resolved queue hr hq x hx
    cases queue with
    | nil => exact hr x hx
    | cons c rest =>
      simp only [bfsFuel] at hx
      by_cases hc : c ∈ resolved
      · rw [if_pos hc] at hx
        exact ih _ _ hr (fun y hy => hq y (List.mem_cons_of_mem _ hy)) x hx
      · rw [if_neg hc] at hx
        refine ih _ _ ?_ ?_ x hx
        · intro y hy
          rcases List.mem_append.mp hy with hy | hy
          · exact hr y hy
          · rw [List.mem_singleton] at hy
            exact hq y (hy ▸ List.mem_cons_self c rest)
        · intro y hy
          rcases List.mem_append.mp hy with hy | hy
          · exact hq y (List.mem_cons_of_mem _ hy)
          · exact Reach.step (hq c (List.mem_cons_self c rest)) hy

theorem sdiff_append_singleton_toFinset (A : Finset Str) (resolved : List Str) (c : Str) :
    A \ (resolved ++ [c]).toFinset = (A \ resolved.toFinset).erase c := by
  ext x
  simp only [Finset.mem_sdiff, List.toFinset_append, List.toFinset_cons,
    List.toFinset_nil, insert_emptyc_eq, Finset.mem_union, Finset.mem_singleton,
    Finset.mem_erase, List.mem_toFinset]
  tauto

theorem potential_step_fresh {g : List (Str × List Str)} {resolved : List Str}
    {c : Str} (hc : c ∉ resolved) (rest : List Str) :
    bfsPotential g (resolved ++ [c]) (rest ++ lookupDeps g c) + 1 =
      bfsPotential g resolved (c :: rest) := by
  unfold bfsPotential
  rw [sdiff_append_singleton_toFinset]
  by_cases hk : c ∈ g.map Prod.fst
  · have hcmem : c ∈ (g.map Prod.fst).toFinset \ resolved.toFinset := by
      simp only [Finset.mem_sdiff, List.mem_toFinset]
      exact ⟨hk, hc⟩
    have hsum : (∑ k in ((g.map Prod.fst).toFinset \ resolved.toFinset).erase c,
        (lookupDeps g k).length) + (lookupDeps g c).length =
        ∑ k in (g.map Prod.fst).toFinset \ resolved.toFinset,
          (lookupDeps g k).length :=
      Finset.sum_erase_add _ _ hcmem
    simp only [List.length_append, List.length_cons]
    omega
  · have hnil : lookupDeps g c = [] := lookupDeps_eq_nil hk
    have hnot : c ∉ (g.map Prod.fst).toFinset \ resolved.toFinset := by
      simp only [Finset.mem_sdiff, List.mem_toFinset]
      tauto
    rw [Finset.erase_eq_of_not_mem hnot, hnil]
    simp only [List.append_nil, List.length_cons]
    omega

theorem bfsFuel_seeds_mem {g : List (Str × List Str)} :
    ∀ (fuel : Nat) (resolved queue : List Str),
    bfsPotential g resolved queue < fuel →
    ∀ x, (x ∈ resolved ∨ x ∈ queue) → x ∈ bfsFuel g fuel resolved queue := by
  intro fuel
  induction fuel with
  | zero => intro resolved queue hf; exact absurd hf (Nat.not_lt_zero _)
  | succ fuel ih =>
    intro resolved queue hf x hx
    cases queue with
    | nil =>
      rcases hx with hx | hx
      · exact hx
      · simp at hx
    | cons c rest =>
      simp only [bfsFuel]
      by_cases hc : c ∈ resolved
      · rw [if_pos hc]
        refine ih _ _ ?_ x ?_
        · unfold bfsPotential at hf ⊢
          simp only [List.length_cons] at hf
          omega
        · rcases hx with hx | hx
          · exact Or.inl hx
          · rcases List.mem_cons.mp hx with rfl | hx
            · exact Or.inl hc
            · exact Or.inr hx
      · rw [if_neg hc]
        refine ih _ _ ?_ x ?_
        · have := potential_step_fresh hc (g := g) rest
          omega
        · rcases hx with hx | hx
          · exact Or.inl (List.mem_append_left _ hx)
          · rcases List.mem_cons.mp hx with rfl | hx
            · exact Or.inl (List.mem_append_right _ (List.mem_singleton.mpr rfl))
            · exact Or.inr (List.mem_append_left _ hx)

theorem bfsFuel_closed {g : List (Str × List Str)} :
    ∀ (fuel : Nat) (resolved queue : List Str),
    bfsPotential g resolved queue < fuel →
    (∀ y ∈ resolved, ∀ d ∈ lookupDeps g y, d ∈ resolved ∨ d ∈ queue) →
    ∀ y ∈ bfsFuel g fuel resolved queue, ∀ d ∈ lookupDeps g y,
      d ∈ bfsFuel g fuel resolved queue := by
  intro fuel
  induction fuel with
  | zero => intro resolved queue hf; exact absurd hf (Nat.not_lt_zero _)
  | succ fuel ih =>
    intro resolved queue hf hcl y hy d hd
    cases queue with
    | nil =>
      rcases hcl y hy d hd with h | h
      · exact h
      · simp at h
    | cons c rest =>
      simp only [bfsFuel] at hy ⊢
      by_cases hc : c ∈ resolved
      · rw [if_pos hc] at hy ⊢
        refine ih _ _ ?_ ?_ y hy d hd
        · unfold bfsPotential at hf ⊢
          simp only [List.length_cons] at hf
          omega
        · intro z hz e he
          rcases hcl z hz e he with h | h
          · exact Or.inl h
          · rcases List.mem_cons.mp h with rfl | h
            · exact Or.inl hc
            · exact Or.inr h
      · rw [if_neg hc] at hy ⊢
        refine ih _ _ ?_ ?_ y hy d hd
        · have := potential_step_fresh hc (g := g) rest
          omega
        · intro z hz e he
          rcases List.mem_append.mp hz with hz | hz
          · rcases hcl z hz e he with h | h
            · exact Or.inl (List.mem_append_left _ h)
            · rcases List.mem_cons.mp h with rfl | h
              · exact Or.inl (List.mem_append_right _ (List.mem_singleton.mpr rfl))
              · exact Or.inr (List.mem_append_left _ h)
          · rw [List.mem_singleton] at hz
            subst hz
            exact Or.inr (List.mem_append_right _ he)

theorem sum_lookupDeps_le (g : List (Str × List Str)) :
    (∑ k in (g.map Prod.fst).toFinset, (lookupDeps g k).length) ≤
      (g.map (fun e => e.2.length)).sum := by
  induction g with
  | nil => simp
  | cons e g ih =>
    simp only [List.map_cons, List.toFinset_cons, List.sum_cons]
    have hins : ∀ (s : Finset Str) (f : Str → Nat) (a : Str),
        (∑ k in insert a s, f k) = f a + ∑ k in s.erase a, f k := by
      intro s f a
      by_cases ha : a ∈ s
      · rw [Finset.insert_eq_self.mpr ha]
        exact (Finset.add_sum_erase s f ha).symm
      · rw [Finset.sum_insert ha, Finset.erase_eq_of_not_mem ha]
    rw [hins]
    have hlook_self : lookupDeps (e :: g) e.1 = e.2 := by
      simp [lookupDeps, aget, List.find?_cons]
    have hcongr : (∑ k in ((g.map Prod.fst).toFinset).erase e.1,
        (lookupDeps (e :: g) k).length) =
        ∑ k in ((g.map Prod.fst).toFinset).erase e.1, (lookupDeps g k).length := by
      apply Finset.sum_congr rfl
      intro k hk
      have hne : k ≠ e.1 := (Finset.mem_erase.mp hk).1
      have hbeq : (e.1 == k) = false := by
        simp only [beq_eq_false_iff_ne, ne_eq]
        exact fun h => hne h.symm
      simp [lookupDeps, aget, List.find?_cons, hbeq]
    rw [hlook_self, hcongr]
    have hsub : (∑ k in ((g.map Prod.fst).toFinset).erase e.1,
        (lookupDeps g k).length) ≤
        ∑ k in (g.map Prod.fst).toFinset, (lookupDeps g k).length :=
      Finset.sum_le_sum_of_subset (Finset.erase_subset _ _)
    omega

theorem initial_potential_lt (g : List (Str × List Str)) (seeds : List Str) :
    bfsPotential g [] seeds < bfsBound g seeds := by
  unfold bfsPotential bfsBound
  simp only [List.toFinset_nil, Finset.sdiff_empty]
  have := sum_lookupDeps_le g
  omega

/-- The closure computation returns exactly the reachable set. -/
theorem mem_getTransitiveDependencies_iff (g : List (Str × List Str))
    (seeds : List Str) (x : Str) :
    x ∈ getTransitiveDependencies seeds g ↔ Reach g seeds x := by
  constructor
  · intro hx
    exact bfsFuel_sound _ _ _ (by simp) (fun y hy => Reach.seed hy) x hx
  · intro hr
    induction hr with
    | seed hx =>
      exact bfsFuel_seeds_mem _ _ _ (initial_potential_lt g seeds) _ (Or.inr hx)
    | step hry hd ih =>
      exact bfsFuel_closed _ _ _ (initial_potential_lt g seeds) (by simp) _ ih _ hd

/-- C4: for every finite dependency graph — cycles included — the
transitive-closure computation is a total function (it is defined for
all inputs by construction, its worklist fuel strictly exceeding the
loop's iteration count) returning exactly the set of names reachable
from the seed set, seeds included; and on the two-name cycle
`A ↔ B` seeded with `A` it returns the finite set `[A, B]`. -/
theorem c4_transitive_closure :
    (∀ (g : List (Str × List Str)) (seeds : List Str) (x : Str),
       x ∈ getTransitiveDependencies seeds g ↔ Reach g seeds x) ∧
    getTransitiveDependencies [S "A"] cycleGraph = [S "A", S "B"] :=
  ⟨mem_getTransitiveDependencies_iff, by decide⟩

/-! ### C5 amended: what the comparator sort does guarantee -/

/-- C5 amended: the comparator realizes the pairwise rule — `a` sorts
after `b` when `a` transitively depends on `b`, before it when `b`
transitively depends on `a` (and `a` does not on `b`), and otherwise by
original declaration order — and the emitted ordering is a permutation
of the component list.  The global topological property of the original
claim is not guaranteed (and cannot hold for mutually dependent
components, see the counterexample). -/
theorem c5_topo_amended (g : List (Str × List Str)) (ag ns : List Str) (a b : Str)
    (sortedOut : List Str) (hout : sortedOut = sortComponents ns g ag) :
    (Reach g [a] b → componentCmp g ag a b = 1) ∧
    (¬ Reach g [a] b → Reach g [b] a → componentCmp g ag a b = -1) ∧
    (¬ Reach g [a] b → ¬ Reach g [b] a →
      componentCmp g ag a b = idxOfName ag a - idxOfName ag b) ∧
    sortedOut.Perm ns := by
  have hmemA : ∀ x y : Str,
      (getTransitiveDependencies [x] g).contains y = true ↔ Reach g [x] y := by
    intro x y
    rw [List.contains_iff_exists_mem_beq]
    constructor
    · rintro ⟨z, hz, hbeq⟩
      rw [beq_iff_eq] at hbeq
      exact hbeq ▸ (mem_getTransitiveDependencies_iff g [x] z).mp hz
    · intro hr
      exact ⟨y, (mem_getTransitiveDependencies_iff g [x] y).mpr hr, by simp⟩
  refine ⟨?_, ?_, ?_, hout ▸ jsSort_perm _ _⟩
  · intro hr
    unfold componentCmp
    rw [if_pos ((hmemA a b).mpr hr)]
  · intro hnr hr
    unfold componentCmp
    rw [if_neg ?_, if_pos ((hmemA b a).mpr hr)]
    intro hcon
    exact hnr ((hmemA a b).mp hcon)
  · intro hnab hnba
    unfold componentCmp
    rw [if_neg ?_, if_neg ?_]
    · intro hcon
      exact hnba ((hmemA b a).mp hcon)
    · intro hcon
      exact hnab ((hmemA a b).mp hcon)

theorem c5_topo_amended_witness :
    ([S "Y", S "X"] = sortComponents [S "X", S "Y"] [(S "X", [S "Y"])] [S "X", S "Y"]) ∧
    Reach [(S "X", [S "Y"])] [S "X"] (S "Y") ∧
    ((componentCmp [(S "X", [S "Y"])] [S "X", S "Y"] (S "X") (S "Y") = 1) ∧
     (componentCmp [(S "X", [S "Y"])] [S "X", S "Y"] (S "Y") (S "X") = -1) ∧
     ([S "Y", S "X"] : List Str).Perm [S "X", S "Y"]) := by
  have hsort : ([S "Y", S "X"] : List Str) =
      sortComponents [S "X", S "Y"] [(S "X", [S "Y"])] [S "X", S "Y"] := by decide
  have hreach : Reach [(S "X", [S "Y"])] [S "X"] (S "Y") :=
    @Reach.step [(S "X", [S "Y"])] [S "X"] (S "X") (S "Y")
      (@Reach.seed [(S "X", [S "Y"])] [S "X"] (S "X") (by simp)) (by decide)
  have hnotback : ¬ Reach [(S "X", [S "Y"])] [S "Y"] (S "X") := by
    intro hr
    have := (mem_getTransitiveDependencies_iff [(S "X", [S "Y"])] [S "Y"] (S "X")).mpr hr
    revert this
    decide
  have h1 := c5_topo_amended [(S "X", [S "Y"])] [S "X", S "Y"] [S "X", S "Y"]
    (S "X") (S "Y") [S "Y", S "X"] hsort
  have h2 := c5_topo_amended [(S "X", [S "Y"])] [S "X", S "Y"] [S "X", S "Y"]
    (S "Y") (S "X") [S "Y", S "X"] hsort
  exact ⟨hsort, hreach, h1.1 hreach, (h2.2.1 hnotback) hreach, h1.2.2.2⟩

/-! ### C6: the plain-declaration extent scan -/

theorem foldl_declStep_latch (s : Str) (e : Nat) :
    ∀ (ps : List Nat) (st : DeclScan), st.found = some e →
      ps.foldl (declStep s) st = st := by
  intro ps
  induction ps with
  | nil => intro st _; rfl
  | cons p ps ih =>
    intro st h
    simp only [List.foldl_cons]
    rw [show declStep s st p = st from by simp [declStep, h]]
    exact ih st h

theorem depthsAt_start (s : Str) (start : Nat) : depthsAt s start start = (0, 0, 0) := by
  unfold depthsAt
  have hnil : (s.take start).drop start = [] := by
    apply List.drop_eq_nil_of_le
    simp [List.length_take]
  rw [hnil]
  rfl

theorem depthStep_space (d : Int × Int × Int) : depthStep d ' ' = d := rfl

theorem depthsAt_succ (s : Str) (start i : Nat) (hsi : start ≤ i) :
    depthsAt s start (i + 1) = depthStep (depthsAt s start i) (s.getD i ' ') := by
  unfold depthsAt
  by_cases hi : i < s.length
  · have htake : s.take (i + 1) = s.take i ++ [s.getD i ' '] := by
      rw [List.take_succ]
      congr 1
      rw [List.getD_eq_getElem?_getD, List.getElem?_eq_getElem hi]
      rfl
    rw [htake, List.drop_append_of_le_length (by simp [List.length_take]; omega),
      List.foldl_append]
    rfl
  · have htake : s.take (i + 1) = s.take i := by
      rw [List.take_of_length_le (by omega), List.take_of_length_le (by omega)]
    have hd : s.getD i ' ' = ' ' := by
      rw [List.getD_eq_getElem?_getD, List.getElem?_eq_none (by omega)]
      rfl
    rw [htake, hd, depthStep_space]

theorem declStep_none (s : Str) (d : Int × Int × Int) (i : Nat)
    (hnot : ¬(s.getD i ' ' = ';' ∧ d = (0, 0, 0))) :
    declStep s ⟨d.1, d.2.1, d.2.2, none⟩ i =
      ⟨(depthStep d (s.getD i ' ')).1, (depthStep d (s.getD i ' ')).2.1,
       (depthStep d (s.getD i ' ')).2.2, none⟩ := by
  unfold declStep depthStep
  simp only
  split_ifs with h1 h2 h3 h4 h5 h6 h7
  · rfl
  · rfl
  · rfl
  · rfl
  · rfl
  · rfl
  · exfalso
    simp only [Bool.and_eq_true, decide_eq_true_eq] at h7
    refine hnot ⟨h7.1.1.1, ?_⟩
    obtain ⟨⟨⟨-, hb⟩, hk⟩, hp⟩ := h7
    have : d = (d.1, d.2.1, d.2.2) := rfl
    rw [this, hb, hk, hp]
  · rfl

theorem declScan_spec (s : Str) (start : Nat) :
    ∀ (m i : Nat), start ≤ i →
      ((List.range' i m).foldl (declStep s)
        ⟨(depthsAt s start i).1, (depthsAt s start i).2.1,
         (depthsAt s start i).2.2, none⟩).found =
      (List.range' i m).findSome?
        (fun j => if topSemiAt s start j then some (j + 1) else none) := by
  intro m
  induction m with
  | zero => intro i _; rfl
  | succ m ih =>
    intro i hsi
    rw [List.range'_succ, List.foldl_cons, List.findSome?_cons]
    by_cases hsemi : s.getD i ' ' = ';' ∧ depthsAt s start i = (0, 0, 0)
    · have hi : i < s.length := by
        by_contra hc
        have : s.getD i ' ' = ' ' := by
          rw [List.getD_eq_getElem?_getD, List.getElem?_eq_none (by omega)]
          rfl
        rw [this] at hsemi
        exact absurd hsemi.1 (by decide)
      have hstep : declStep s
          ⟨(depthsAt s start i).1, (depthsAt s start i).2.1,
           (depthsAt s start i).2.2, none⟩ i =
          ⟨(depthsAt s start i).1, (depthsAt s start i).2.1,
           (depthsAt s start i).2.2, some (i + 1)⟩ := by
        unfold declStep
        simp only
        have hzero : depthsAt s start i = (0, 0, 0) := hsemi.2
        rw [hsemi.1, hzero]
        simp
      rw [hstep, foldl_declStep_latch s (i + 1) _ _ rfl]
      have htop : topSemiAt s start i = true := by
        unfold topSemiAt isCharAt
        rw [List.getElem?_eq_getElem hi]
        have : s[i] = s.getD i ' ' := by
          rw [List.getD_eq_getElem?_getD, List.getElem?_eq_getElem hi]
          rfl
        rw [this, hsemi.1, hsemi.2]
        simp
      rw [htop]
      simp
    · have hstep := declStep_none s (depthsAt s start i) i hsemi
      rw [hstep, ← depthsAt_succ s start i hsi]
      have htop : topSemiAt s start i = false := by
        unfold topSemiAt
        cases hq : isCharAt s i ';' with
        | false => simp [hq]
        | true =>
          have hchar : s.getD i ' ' = ';' := by
            unfold isCharAt at hq
            cases hgi : s[i]? with
            | none => rw [hgi] at hq; simp at hq
            | some c =>
              rw [hgi] at hq
              simp only [decide_eq_true_eq] at hq
              rw [List.getD_eq_getElem?_getD, hgi]
              simpa using hq
          have hdep : ¬ depthsAt s start i = (0, 0, 0) := fun h => hsemi ⟨hchar, h⟩
          simp only [hq, Bool.true_and, beq_eq_false_iff_ne, ne_eq]
          exact hdep
      rw [htop]
      simp only [Bool.false_eq_true, if_false]
      exact ih (i + 1) (by omega)

theorem scanFirst_unit_bridge (p : Nat → Bool) :
    ∀ (m i : Nat),
      (List.range' i m).findSome? (fun j => if p j then some (j + 1) else none) =
      ((List.range' i m).findSome?
        (fun j => (if p j then some () else none).map (fun a => (j, a)))).map
          (fun pr => pr.1 + 1) := by
  intro m
  induction m with
  | zero => intro i; rfl
  | succ m ih =>
    intro i
    rw [List.range'_succ, List.findSome?_cons, List.findSome?_cons]
    by_cases hp : p i
    · simp [hp]
    · simp only [hp, Bool.false_eq_true, if_false, Option.map_none']
      exact ih (i + 1)

/-- C6: the extracted extent of a plain declaration runs from the
declaration start to just past the first semicolon whose accumulated
brace, bracket and paren depths are all zero; when no such semicolon
exists before the end of the text, it ends at the next newline after
the declaration start, or at the end of the text when there is no
newline. -/
theorem c6_decl_extent (s : Str) (start : Nat) :
    findDeclEnd s start =
      match scanFirst (fun i => if topSemiAt s start i then some () else none)
          s.length start with
      | some pr => pr.1 + 1
      | none =>
        match idxFrom s (S "\n") start with
        | some n => n
        | none => s.length := by
  unfold findDeclEnd declScanLoop
  have hinit : (⟨0, 0, 0, none⟩ : DeclScan) =
      ⟨(depthsAt s start start).1, (depthsAt s start start).2.1,
       (depthsAt s start start).2.2, none⟩ := by
    rw [depthsAt_start]
  rw [hinit, declScan_spec s start (s.length - start) start (le_refl start),
    scanFirst_unit_bridge]
  unfold scanFirst
  cases (List.range' start (s.length - start)).findSome?
      (fun j => (if topSemiAt s start j then some () else none).map
        (fun a => (j, a))) with
  | none => rfl
  | some pr => rfl

/-! ### The registry invariants -/

theorem aget_mem {m : List (Str × α)} {k : Str} {v : α} (h : aget m k = some v) :
    (k, v) ∈ m := by
  simp only [aget, Option.map_eq_some'] at h
  obtain ⟨e, hfind, he2⟩ := h
  have hmem := List.mem_of_find?_eq_some hfind
  have hkey : e.1 = k := by
    have := List.find?_some hfind
    simpa using this
  obtain ⟨e1, e2⟩ := e
  simp only at hkey he2
  rw [← hkey, ← he2]
  exact hmem

theorem regLe_refl (st : RegState) : RegLe st st :=
  ⟨fun _ _ h => h, [], by simp⟩

theorem regLe_trans {a b c : RegState} (h1 : RegLe a b) (h2 : RegLe b c) :
    RegLe a c := by
  obtain ⟨hc1, t1, ht1⟩ := h1
  obtain ⟨hc2, t2, ht2⟩ := h2
  exact ⟨fun k v h => hc2 k v (hc1 k v h), t1 ++ t2, by rw [ht2, ht1, List.append_assoc]⟩

theorem unitOk_mono {st st2 : RegState} {r : ModuleReg} (h : UnitOk st r)
    (hle : RegLe st st2) : UnitOk st2 r := by
  obtain ⟨hm, hc, hi⟩ := h
  obtain ⟨hcle, t, ht⟩ := hle
  refine ⟨hm, ?_, ?_⟩
  · rw [Option.isSome_iff_exists] at hc
    obtain ⟨v, hv⟩ := hc
    rw [Option.isSome_iff_exists]
    exact ⟨v, hcle _ _ hv⟩
  · rw [ht]
    exact hi.trans (List.infix_append [] st.importsToAdd t)

theorem registerModule_spec (st : RegState) (resolved raw : Str) (hok : RegOk st) :
    RegOk (registerModule st resolved raw).1 ∧
    RegLe st (registerModule st resolved raw).1 ∧
    (registerModule st resolved raw).2.resolved = resolved ∧
    (registerModule st resolved raw).2.raw = raw ∧
    UnitOk (registerModule st resolved raw).1 (registerModule st resolved raw).2 := by
  cases hget : aget st.hashToLocal (hash8 resolved) with
  | some l =>
    have heq : registerModule st resolved raw =
        (st, ⟨raw, resolved, hash8 resolved, virtOf (hash8 resolved), l, false, []⟩) := by
      simp only [registerModule, hget]
    rw [heq]
    have hent := hok.1 _ (aget_mem hget)
    simp only at hent
    refine ⟨hok, regLe_refl st, rfl, rfl, ?_⟩
    refine ⟨⟨rfl, hent.1, rfl, hash8_length resolved, hash8_hex resolved,
      by intro h; simp at h, fun _ => rfl⟩, ?_, ?_⟩
    · exact hent.2
    · exact List.nil_infix
  | none =>
    have heq : registerModule st resolved raw =
        (⟨aset st.hashToLocal (hash8 resolved) (S "Inline_" ++ hash8 resolved),
          (if (aget st.cache (virtOf (hash8 resolved))).isSome = true
            then st.cache
            else st.cache ++ [(virtOf (hash8 resolved), resolved)]),
          st.importsToAdd ++
            (if moduleScriptExportTest raw then nsImportFor (hash8 resolved)
             else plainImportFor (hash8 resolved))⟩,
         ⟨raw, resolved, hash8 resolved, virtOf (hash8 resolved),
          S "Inline_" ++ hash8 resolved, true,
          (if moduleScriptExportTest raw then nsImportFor (hash8 resolved)
           else plainImportFor (hash8 resolved))⟩) := by
      simp only [registerModule, hget]
    rw [heq]
    have hcache2 : (aget (if (aget st.cache (virtOf (hash8 resolved))).isSome = true
        then st.cache
        else st.cache ++ [(virtOf (hash8 resolved), resolved)])
        (virtOf (hash8 resolved))).isSome = true := by
      by_cases hc : (aget st.cache (virtOf (hash8 resolved))).isSome = true
      · rw [if_pos hc]
        exact hc
      · rw [if_neg hc]
        have hnone : aget st.cache (virtOf (hash8 resolved)) = none := by
          cases h : aget st.cache (virtOf (hash8 resolved)) with
          | none => rfl
          | some v => rw [h] at hc; simp at hc
        rw [aget_append_singleton_self hnone]
        rfl
    have hcachemono : ∀ k v, aget st.cache k = some v →
        aget (if (aget st.cache (virtOf (hash8 resolved))).isSome = true
          then st.cache
          else st.cache ++ [(virtOf (hash8 resolved), resolved)]) k = some v := by
      intro k v hv
      by_cases hc : (aget st.cache (virtOf (hash8 resolved))).isSome = true
      · rw [if_pos hc]; exact hv
      · rw [if_neg hc]; exact aget_append_left hv
    have hnodup2 : (akeys (if (aget st.cache (virtOf (hash8 resolved))).isSome = true
        then st.cache
        else st.cache ++ [(virtOf (hash8 resolved), resolved)])).Nodup := by
      by_cases hc : (aget st.cache (virtOf (hash8 resolved))).isSome = true
      · rw [if_pos hc]; exact hok.2
      · rw [if_neg hc]
        refine akeys_nodup_append hok.2 ?_
        cases h : aget st.cache (virtOf (hash8 resolved)) with
        | none => rfl
        | some v => rw [h] at hc; simp at hc
    refine ⟨⟨?_, hnodup2⟩, ⟨hcachemono, _, rfl⟩, rfl, rfl, ?_⟩
    · intro e he
      rcases mem_aset he with rfl | he2
      · exact ⟨rfl, hcache2⟩
      · obtain ⟨h1, h2⟩ := hok.1 e he2
        refine ⟨h1, ?_⟩
        rw [Option.isSome_iff_exists] at h2
        obtain ⟨v, hv⟩ := h2
        rw [Option.isSome_iff_exists]
        exact ⟨v, hcachemono _ _ hv⟩
    · refine ⟨⟨rfl, rfl, rfl, hash8_length resolved, hash8_hex resolved,
        fun _ => rfl, by intro h; simp at h⟩, hcache2, ?_⟩
      exact ⟨st.importsToAdd, [], by simp⟩

theorem compStep_spec (gc : List Str) (gv nm : List (Str × Str))
    (dg : List (Str × List Str)) (ag : List Str) (ic : Str)
    (st : CompLoopState) (compName : Str) (hok : RegOk st.reg) :
    RegOk (compStep gc gv nm dg ag ic st compName).reg ∧
    RegLe st.reg (compStep gc gv nm dg ag ic st compName).reg ∧
    ∃ c, (compStep gc gv nm dg ag ic st compName).comps = st.comps ++ [c] ∧
      c.reg.resolved = c.resolved ∧ c.reg.raw = c.raw ∧
      UnitOk (compStep gc gv nm dg ag ic st compName).reg c.reg := by
  unfold compStep
  set rawMarkup := (aget nm compName).getD [] with hraw
  set scriptToInject := compScriptToInject
    (jsSort (idxCmp ag) ((getTransitiveDependencies [compName] dg).erase compName))
    gc st.componentInfo gv with hstj
  set markupWithDeps := applySharedCode (applySharedCode rawMarkup ic) scriptToInject
    with hmwd
  obtain ⟨hok2, hle2, hres, hraweq, hunit⟩ :=
    registerModule_spec st.reg markupWithDeps rawMarkup hok
  exact ⟨hok2, hle2,
    ⟨compName, rawMarkup, markupWithDeps, (registerModule st.reg markupWithDeps rawMarkup).2⟩,
    rfl, hres, hraweq, hunit⟩

theorem processComps_spec (gc : List Str) (gv nm : List (Str × Str))
    (dg : List (Str × List Str)) (ag : List Str) (ic : Str) :
    ∀ (names : List Str) (st : CompLoopState), RegOk st.reg →
      RegOk (processComps gc gv nm dg ag ic st names).reg ∧
      RegLe st.reg (processComps gc gv nm dg ag ic st names).reg ∧
      ∀ c ∈ (processComps gc gv nm dg ag ic st names).comps,
        c ∈ st.comps ∨ (c.reg.resolved = c.resolved ∧ c.reg.raw = c.raw ∧
          UnitOk (processComps gc gv nm dg ag ic st names).reg c.reg) := by
  intro names
  induction names with
  | nil => intro st hok; exact ⟨hok, regLe_refl _, fun c hc => Or.inl hc⟩
  | cons compName rest ih =>
    intro st hok
    simp only [processComps]
    obtain ⟨hok1, hle1, c1, hcomps1, hres1, hraw1, hunit1⟩ :=
      compStep_spec gc gv nm dg ag ic st compName hok
    obtain ⟨hok2, hle2, hunits2⟩ := ih _ hok1
    refine ⟨hok2, regLe_trans hle1 hle2, ?_⟩
    intro c hc
    rcases hunits2 c hc with hmem | hgood
    · rw [hcomps1] at hmem
      rcases List.mem_append.mp hmem with hmem | hmem
      · exact Or.inl hmem
      · rw [List.mem_singleton] at hmem
        subst hmem
        exact Or.inr ⟨hres1, hraw1, unitOk_mono hunit1 hle2⟩
    · exact Or.inr hgood

theorem blockInjected_decl_false (gc : List Str) (gv : List (Str × Str)) (esc : Str)
    (sd : List Str) :
    ∀ n ∈ (blockInjected sd gc gv esc).1, declaredTest esc n = false := by
  unfold blockInjected
  suffices h : ∀ (sd2 : List Str) (acc : List Str × Str),
      (∀ n ∈ acc.1, declaredTest esc n = false) →
      ∀ n ∈ (sd2.foldl (fun acc name =>
          if gc.contains name then acc
          else if declaredTest esc name then acc
          else
            match aget gv name with
            | some dfn => (acc.1 ++ [name], acc.2 ++ S "\n" ++ dfn)
            | none => acc) acc).1,
        declaredTest esc n = false by
    exact h sd ([], []) (by simp)
  intro sd2
  induction sd2 with
  | nil => intro acc hacc n hn; exact hacc n hn
  | cons x xs ih =>
    intro acc hacc n hn
    simp only [List.foldl_cons] at hn
    refine ih _ ?_ n hn
    by_cases h1 : gc.contains x = true
    · rw [if_pos h1]
      exact hacc
    · rw [if_neg h1]
      by_cases h2 : declaredTest esc x = true
      · rw [if_pos h2]
        exact hacc
      · rw [if_neg h2]
        cases h3 : aget gv x with
        | none =>
          exact hacc
        | some dfn =>
          intro n2 hn2
          rcases List.mem_append.mp hn2 with hn2 | hn2
          · exact hacc n2 hn2
          · rw [List.mem_singleton] at hn2
            subst hn2
            simp only [Bool.not_eq_true] at h2
            exact h2

theorem processBlock_spec (ctx : BlockCtx) (code : Str) (st : BlockLoopState)
    (m : TplMatch) (hok : RegOk st.reg) :
    RegOk (processBlock ctx code st m).reg ∧
    RegLe st.reg (processBlock ctx code st m).reg ∧
    ∃ b, (processBlock ctx code st m).blocks = st.blocks ++ [b] ∧
      BlockShape code b ∧ UnitOk (processBlock ctx code st m).reg b.reg := by
  unfold processBlock
  set rawMarkup := tplRaw code m with hraw
  set inj := blockInjected
    (jsSort (idxCmp ctx.allGlobalNames)
      (getTransitiveDependencies
        (ctx.allGlobalNames.filter (fun n => wordBoundaryTest rawMarkup n)) ctx.depGraph))
    ctx.globalComponentNames ctx.globalVarDefs (firstScriptContent rawMarkup) with hinj
  set markupWithGlobals := applySharedCode
    (applySharedCode rawMarkup (joinSep (S "\n") (importMatchesStr ctx.fenceContent)))
    (ctx.globalImportsForTpl ++ inj.2) with hmwg
  obtain ⟨hok2, hle2, hres, hraweq, hunit⟩ :=
    registerModule_spec st.reg markupWithGlobals rawMarkup hok
  refine ⟨hok2, hle2,
    ⟨m.start, m.matchEnd, rawMarkup, inj.1, ctx.globalImportsForTpl ++ inj.2,
     markupWithGlobals, (registerModule st.reg markupWithGlobals rawMarkup).2⟩,
    rfl, ⟨hres, hraweq, ?_, m, rfl, rfl, rfl⟩, hunit⟩
  intro n hn
  exact blockInjected_decl_false ctx.globalComponentNames ctx.globalVarDefs
    (firstScriptContent rawMarkup) _ n hn

theorem processBlocks_spec (ctx : BlockCtx) (code : Str) :
    ∀ (ms : List TplMatch) (st : BlockLoopState), RegOk st.reg →
      RegOk (processBlocks ctx code st ms).reg ∧
      RegLe st.reg (processBlocks ctx code st ms).reg ∧
      ∀ b ∈ (processBlocks ctx code st ms).blocks,
        b ∈ st.blocks ∨ (BlockShape code b ∧
          UnitOk (processBlocks ctx code st ms).reg b.reg) := by
  intro ms
  induction ms with
  | nil => intro st hok; exact ⟨hok, regLe_refl _, fun b hb => Or.inl hb⟩
  | cons m rest ih =>
    intro st hok
    simp only [processBlocks]
    by_cases hskip : (match ctx.fence with
        | some f => decide (f.start ≤ m.start) && decide (m.start < f.matchEnd)
        | none => false) = true
    · rw [if_pos hskip]
      exact ih st hok
    · rw [if_neg hskip]
      obtain ⟨hok1, hle1, b1, hblocks1, hshape1, hunit1⟩ :=
        processBlock_spec ctx code st m hok
      obtain ⟨hok2, hle2, hunits2⟩ := ih _ hok1
      refine ⟨hok2, regLe_trans hle1 hle2, ?_⟩
      intro b hb
      rcases hunits2 b hb with hmem | hgood
      · rw [hblocks1] at hmem
        rcases List.mem_append.mp hmem with hmem | hmem
        · exact Or.inl hmem
        · rw [List.mem_singleton] at hmem
          subst hmem
          exact Or.inr ⟨hshape1, unitOk_mono hunit1 hle2⟩
      · exact Or.inr hgood

/-! ### Positions of emitted blocks -/

theorem gscan_pairwise {β : Type} (f : Nat → Option (Nat × Option β)) (key : β → Nat)
    (hkey : ∀ p r, f p = some r → ∀ b, r.2 = some b → key b = p) (n : Nat) :
    (gscan f n).Pairwise (fun a b => key a < key b) := by
  unfold gscan
  suffices h : ∀ (ps : List Nat) (st : Nat × List β),
      ps.Pairwise (· < ·) →
      st.2.Pairwise (fun a b => key a < key b) →
      (∀ b ∈ st.2, ∀ p ∈ ps, key b < p) →
      ((ps.foldl (gscanStep f) st).2.Pairwise (fun a b => key a < key b)) by
    exact h (List.range n) (0, []) (List.pairwise_lt_range n) (by simp) (by simp)
  intro ps
  induction ps with
  | nil => intro st _ hp _; exact hp
  | cons p ps ih =>
    intro st hps hp hb
    have hps2 := List.pairwise_cons.mp hps
    simp only [List.foldl_cons]
    have hstep : gscanStep f st p =
        if p < st.1 then st
        else
          match f p with
          | some (nxt, b) => (max nxt (p + 1), st.2 ++ b.toList)
          | none => (p + 1, st.2) := rfl
    rw [hstep]
    by_cases hcur : p < st.1
    · rw [if_pos hcur]
      exact ih st hps2.2 hp (fun b hbm q hq => hb b hbm q (List.mem_cons_of_mem _ hq))
    · rw [if_neg hcur]
      cases hf : f p with
      | none =>
        exact ih (p + 1, st.2) hps2.2 hp
          (fun b hbm q hq => hb b hbm q (List.mem_cons_of_mem _ hq))
      | some r =>
        obtain ⟨nxt, ob⟩ := r
        cases hr2 : ob with
        | none =>
          refine ih (max nxt (p + 1), st.2 ++ Option.toList none) hps2.2 ?_ ?_
          · simpa using hp
          · simpa using (fun b hbm q hq => hb b hbm q (List.mem_cons_of_mem _ hq))
        | some b =>
          have hbk : key b = p := hkey p (nxt, some b) (hr2 ▸ hf) b rfl
          refine ih (max nxt (p + 1), st.2 ++ Option.toList (some b)) hps2.2 ?_ ?_
          · simp only [Option.toList_some]
            rw [List.pairwise_append]
            refine ⟨hp, by simp, ?_⟩
            intro a ham b2 hb2
            rw [List.mem_singleton] at hb2
            subst hb2
            rw [hbk]
            exact hb a ham p (List.mem_cons_self _ _)
          · simp only [Option.toList_some]
            intro x hx q hq
            rcases List.mem_append.mp hx with hx | hx
            · exact hb x hx q (List.mem_cons_of_mem _ hq)
            · rw [List.mem_singleton] at hx
              subst hx
              rw [hbk]
              exact hps2.1 q hq

theorem tplMatches_starts_pairwise (s : Str) :
    (tplMatches s).Pairwise (fun a b => a.start < b.start) := by
  unfold tplMatches
  apply gscan_pairwise
  intro p r hf b hb
  cases hm : tplMatchAt s p with
  | none => rw [hm] at hf; simp at hf
  | some q =>
    rw [hm] at hf
    simp only [Option.map_some', Option.some_inj] at hf
    rw [← hf] at hb
    simp only [Option.some_inj] at hb
    rw [← hb]

theorem processBlocks_starts (ctx : BlockCtx) (code : Str) :
    ∀ (ms : List TplMatch) (st : BlockLoopState),
      ∃ l, (processBlocks ctx code st ms).blocks.map (fun b => b.start) =
        st.blocks.map (fun b => b.start) ++ l ∧
        l.Sublist (ms.map (fun m => m.start)) := by
  intro ms
  induction ms with
  | nil => intro st; exact ⟨[], by simp [processBlocks], by simp⟩
  | cons m rest ih =>
    intro st
    simp only [processBlocks]
    by_cases hskip : (match ctx.fence with
        | some f => decide (f.start ≤ m.start) && decide (m.start < f.matchEnd)
        | none => false) = true
    · rw [if_pos hskip]
      obtain ⟨l, heq, hsub⟩ := ih st
      exact ⟨l, heq, hsub.cons m.start⟩
    · rw [if_neg hskip]
      obtain ⟨l, heq, hsub⟩ := ih (processBlock ctx code st m)
      have hpb : (processBlock ctx code st m).blocks.map (fun b => b.start) =
          st.blocks.map (fun b => b.start) ++ [m.start] := by
        unfold processBlock
        simp
      refine ⟨m.start :: l, ?_, hsub.cons₂ m.start⟩
      rw [heq, hpb, List.append_assoc, List.singleton_append]

/-! ### The transform-level master lemma -/

theorem regOk_init (cache0 : List (Str × Str)) (hnd : (akeys cache0).Nodup) :
    RegOk ⟨[], cache0, []⟩ :=
  ⟨fun e he => absurd he (List.not_mem_nil e), hnd⟩

theorem transformNoFence_spec (cache0 : List (Str × Str)) (code : Str)
    (hnd : (akeys cache0).Nodup) :
    (akeys (transformNoFence cache0 code).cache).Nodup ∧
    (∀ k v, aget cache0 k = some v →
      aget (transformNoFence cache0 code).cache k = some v) ∧
    (∀ r ∈ unitRegs (transformNoFence cache0 code),
      MRegOk r ∧ (aget (transformNoFence cache0 code).cache r.virt).isSome = true ∧
      r.importAdded <:+: (transformNoFence cache0 code).importsToAdd) ∧
    (∀ b ∈ (transformNoFence cache0 code).blocks, BlockShape code b) ∧
    (∀ res, (transformNoFence cache0 code).result = some res →
      (transformNoFence cache0 code).importsToAdd <+: res) ∧
    (∀ b ∈ (transformNoFence cache0 code).blocks,
      (b.start, b.matchEnd, b.reg.localName) ∈ (transformNoFence cache0 code).edits) ∧
    ((transformNoFence cache0 code).blocks.map (fun b => b.start)).Pairwise (· < ·) := by
  obtain ⟨hokB, hleB, hunitsB⟩ := processBlocks_spec ⟨[], [], [], [], [], [], none⟩
    code (tplMatches code) ⟨⟨[], cache0, []⟩, []⟩ (regOk_init cache0 hnd)
  have hpw : ((processBlocks ⟨[], [], [], [], [], [], none⟩ code
      ⟨⟨[], cache0, []⟩, []⟩ (tplMatches code)).blocks.map
        (fun b => b.start)).Pairwise (· < ·) := by
    obtain ⟨l, heq, hsub⟩ := processBlocks_starts ⟨[], [], [], [], [], [], none⟩ code
      (tplMatches code) ⟨⟨[], cache0, []⟩, []⟩
    rw [heq]
    have hms : ((tplMatches code).map (fun m => m.start)).Pairwise (· < ·) :=
      List.Pairwise.map _ (fun a b h => h) (tplMatches_starts_pairwise code)
    simpa using hms.sublist hsub
  simp only [transformNoFence]
  split
  · refine ⟨hokB.2, fun k v h => hleB.1 k v h, ?_, ?_, ?_, ?_, ?_⟩
    · intro r hr
      simp [unitRegs] at hr
    · intro b hb
      simp at hb
    · intro res hres
      simp at hres
    · intro b hb
      simp at hb
    · simp
  · refine ⟨hokB.2, fun k v h => hleB.1 k v h, ?_, ?_, ?_, ?_, ?_⟩
    · intro r hr
      simp only [unitRegs, List.map_nil, List.nil_append, List.mem_map] at hr
      obtain ⟨b, hbm, rfl⟩ := hr
      rcases hunitsB b hbm with hmem | ⟨hshape, hunit⟩
      · exact absurd hmem (List.not_mem_nil b)
      · exact ⟨hunit.1, hunit.2.1, hunit.2.2⟩
    · intro b hbm
      rcases hunitsB b hbm with hmem | ⟨hshape, _⟩
      · exact absurd hmem (List.not_mem_nil b)
      · exact hshape
    · intro res hres
      simp only [Option.some_inj] at hres
      rw [← hres]
      exact List.prefix_append _ _
    · intro b hbm
      simp only [List.mem_map]
      exact ⟨b, hbm, rfl⟩
    · exact hpw

theorem withFenceCore_spec (cache0 : List (Str × Str)) (code : Str)
    (f : FenceMatch) (P : FencePre) (hnd : (akeys cache0).Nodup) :
    (akeys (withFenceCore cache0 code f P).cache).Nodup ∧
    (∀ k v, aget cache0 k = some v →
      aget (withFenceCore cache0 code f P).cache k = some v) ∧
    (∀ r ∈ unitRegs (withFenceCore cache0 code f P),
      MRegOk r ∧ (aget (withFenceCore cache0 code f P).cache r.virt).isSome = true ∧
      r.importAdded <:+: (withFenceCore cache0 code f P).importsToAdd) ∧
    (∀ b ∈ (withFenceCore cache0 code f P).blocks, BlockShape code b) ∧
    (∀ res, (withFenceCore cache0 code f P).result = some res →
      (withFenceCore cache0 code f P).importsToAdd <+: res) ∧
    (∀ b ∈ (withFenceCore cache0 code f P).blocks,
      (b.start, b.matchEnd, b.reg.localName) ∈ (withFenceCore cache0 code f P).edits) ∧
    ((withFenceCore cache0 code f P).blocks.map (fun b => b.start)).Pairwise (· < ·) := by
  simp only [withFenceCore]
  set cst := processComps P.globalComponentNames P.globalVarDefs P.nameToMarkup
    P.depGraph P.allGlobalNames P.importCode
    ⟨⟨[], cache0, []⟩, [], [], P.hoisted1, []⟩ P.sortedComponentNames with hcst
  set ctx : BlockCtx := ⟨P.globalComponentNames, P.globalVarDefs, P.allGlobalNames,
    P.depGraph, cst.globalImportsForTpl, P.fenceContent, some f⟩ with hctx
  set bst := processBlocks ctx code ⟨cst.reg, []⟩ (tplMatches code) with hbst
  obtain ⟨hokC, hleC, hunitsC⟩ := processComps_spec P.globalComponentNames
    P.globalVarDefs P.nameToMarkup P.depGraph P.allGlobalNames P.importCode
    P.sortedComponentNames ⟨⟨[], cache0, []⟩, [], [], P.hoisted1, []⟩
    (regOk_init cache0 hnd)
  rw [← hcst] at hokC hleC hunitsC
  obtain ⟨hokB, hleB, hunitsB⟩ := processBlocks_spec ctx code (tplMatches code)
    ⟨cst.reg, []⟩ hokC
  rw [← hbst] at hokB hleB hunitsB
  have hpw : (bst.blocks.map (fun b => b.start)).Pairwise (· < ·) := by
    obtain ⟨l, heq, hsub⟩ := processBlocks_starts ctx code (tplMatches code) ⟨cst.reg, []⟩
    rw [← hbst] at heq
    rw [heq]
    have hms : ((tplMatches code).map (fun m => m.start)).Pairwise (· < ·) :=
      List.Pairwise.map _ (fun a b h => h) (tplMatches_starts_pairwise code)
    simpa using hms.sublist hsub
  refine ⟨hokB.2, ?_, ?_, ?_, ?_, ?_, hpw⟩
  · intro k v h
    exact hleB.1 k v (hleC.1 k v h)
  · intro r hr
    simp only [unitRegs, List.mem_append, List.mem_map] at hr
    rcases hr with ⟨c, hcm, rfl⟩ | ⟨b, hbm, rfl⟩
    · rcases hunitsC c hcm with hmem | ⟨-, -, hunit⟩
      · exact absurd hmem (List.not_mem_nil c)
      · have := unitOk_mono hunit hleB
        exact ⟨this.1, this.2.1, this.2.2⟩
    · rcases hunitsB b hbm with hmem | ⟨-, hunit⟩
      · exact absurd hmem (List.not_mem_nil b)
      · exact ⟨hunit.1, hunit.2.1, hunit.2.2⟩
  · intro b hbm
    rcases hunitsB b hbm with hmem | ⟨hshape, -⟩
    · exact absurd hmem (List.not_mem_nil b)
    · exact hshape
  · intro res hres
    simp only [Option.some_inj] at hres
    rw [← hres]
    exact List.prefix_append _ _
  · intro b hbm
    have hperm := jsSort_perm (fun a b : Nat × Nat × Str => ((a.1 : Int) - (b.1 : Int)))
      ((f.start, f.matchEnd, ([] : Str)) ::
        bst.blocks.map (fun b => (b.start, b.matchEnd, b.reg.localName)))
    refine (hperm.mem_iff).mpr ?_
    exact List.mem_cons_of_mem _ (List.mem_map_of_mem _ hbm)

theorem transformWithFence_spec (cache0 : List (Str × Str)) (code : Str)
    (f : FenceMatch) (hnd : (akeys cache0).Nodup) :
    (akeys (transformWithFence cache0 code f).cache).Nodup ∧
    (∀ k v, aget cache0 k = some v →
      aget (transformWithFence cache0 code f).cache k = some v) ∧
    (∀ r ∈ unitRegs (transformWithFence cache0 code f),
      MRegOk r ∧ (aget (transformWithFence cache0 code f).cache r.virt).isSome = true ∧
      r.importAdded <:+: (transformWithFence cache0 code f).importsToAdd) ∧
    (∀ b ∈ (transformWithFence cache0 code f).blocks, BlockShape code b) ∧
    (∀ res, (transformWithFence cache0 code f).result = some res →
      (transformWithFence cache0 code f).importsToAdd <+: res) ∧
    (∀ b ∈ (transformWithFence cache0 code f).blocks,
      (b.start, b.matchEnd, b.reg.localName) ∈ (transformWithFence cache0 code f).edits) ∧
    ((transformWithFence cache0 code f).blocks.map (fun b => b.start)).Pairwise (· < ·) := by
  simp only [transformWithFence]
  exact withFenceCore_spec cache0 code f (fencePre code f) hnd

theorem transformFull_spec (cache0 : List (Str × Str)) (code id : Str)
    (hnd : (akeys cache0).Nodup) :
    (akeys (transformFull cache0 code id).cache).Nodup ∧
    (∀ k v, aget cache0 k = some v →
      aget (transformFull cache0 code id).cache k = some v) ∧
    (∀ r ∈ unitRegs (transformFull cache0 code id),
      MRegOk r ∧ (aget (transformFull cache0 code id).cache r.virt).isSome = true ∧
      r.importAdded <:+: (transformFull cache0 code id).importsToAdd) ∧
    (∀ b ∈ (transformFull cache0 code id).blocks, BlockShape code b) ∧
    (∀ res, (transformFull cache0 code id).result = some res →
      (transformFull cache0 code id).importsToAdd <+: res) ∧
    (∀ b ∈ (transformFull cache0 code id).blocks,
      (b.start, b.matchEnd, b.reg.localName) ∈ (transformFull cache0 code id).edits) ∧
    ((transformFull cache0 code id).blocks.map (fun b => b.start)).Pairwise (· < ·) := by
  unfold transformFull
  by_cases hu : (!isUserSource id) = true
  · rw [if_pos hu]
    refine ⟨hnd, fun k v h => h, ?_, ?_, ?_, ?_, ?_⟩
    · intro r hr
      simp [unitRegs] at hr
    · intro b hb
      simp at hb
    · intro res hres
      simp at hres
    · intro b hb
      simp at hb
    · simp
  · rw [if_neg hu]
    cases hf : fenceFind code with
    | some f => exact transformWithFence_spec cache0 code f hnd
    | none => exact transformNoFence_spec cache0 code hnd

/-! ### C1: content-addressed deduplication -/

/-- C1: in any transform run (with distinct initial cache keys), any two
processed units — inline blocks or shared components — whose fully
resolved markup is byte-identical receive the same 8-lowercase-hex
content hash and the same generated local name `Inline_<hash>`, share
one virtual path with exactly one cache entry, and two such inline
blocks occupy distinct source spans both rewritten to that one
generated name. -/
theorem c1_dedup (cache0 : List (Str × Str)) (code id : Str)
    (hnd : (akeys cache0).Nodup) (r1 r2 : ModuleReg)
    (hr1 : r1 ∈ unitRegs (transformFull cache0 code id))
    (hr2 : r2 ∈ unitRegs (transformFull cache0 code id))
    (heq : r1.resolved = r2.resolved)
    (i j : Nat) (hi : i < (transformFull cache0 code id).blocks.length)
    (hj : j < (transformFull cache0 code id).blocks.length) (hij : i < j)
    (hbeq : ((transformFull cache0 code id).blocks.get ⟨i, hi⟩).resolved =
      ((transformFull cache0 code id).blocks.get ⟨j, hj⟩).resolved) :
    r1.hash = r2.hash ∧
    r1.hash = hash8 r1.resolved ∧
    r1.hash.length = 8 ∧
    (∀ c ∈ r1.hash, isHexLower c = true) ∧
    r1.localName = r2.localName ∧
    r1.localName = S "Inline_" ++ r1.hash ∧
    r1.virt = r2.virt ∧
    acount (transformFull cache0 code id).cache r1.virt = 1 ∧
    ((transformFull cache0 code id).blocks.get ⟨i, hi⟩).reg.localName =
      ((transformFull cache0 code id).blocks.get ⟨j, hj⟩).reg.localName ∧
    ((transformFull cache0 code id).blocks.get ⟨i, hi⟩).reg.virt =
      ((transformFull cache0 code id).blocks.get ⟨j, hj⟩).reg.virt ∧
    ((transformFull cache0 code id).blocks.get ⟨i, hi⟩).start ≠
      ((transformFull cache0 code id).blocks.get ⟨j, hj⟩).start ∧
    (((transformFull cache0 code id).blocks.get ⟨i, hi⟩).start,
     ((transformFull cache0 code id).blocks.get ⟨i, hi⟩).matchEnd,
     ((transformFull cache0 code id).blocks.get ⟨i, hi⟩).reg.localName) ∈
      (transformFull cache0 code id).edits ∧
    (((transformFull cache0 code id).blocks.get ⟨j, hj⟩).start,
     ((transformFull cache0 code id).blocks.get ⟨j, hj⟩).matchEnd,
     ((transformFull cache0 code id).blocks.get ⟨j, hj⟩).reg.localName) ∈
      (transformFull cache0 code id).edits := by
  obtain ⟨hcnd, hmono, hunits, hshapes, hpre, hedits, hpw⟩ :=
    transformFull_spec cache0 code id hnd
  obtain ⟨hm1, hc1, -⟩ := hunits r1 hr1
  obtain ⟨hm2, -, -⟩ := hunits r2 hr2
  have hhash : r1.hash = r2.hash := by
    rw [hm1.1, hm2.1, heq]
  have hlocal : r1.localName = r2.localName := by
    rw [hm1.2.1, hm2.2.1, hhash]
  have hvirt : r1.virt = r2.virt := by
    rw [hm1.2.2.1, hm2.2.2.1, hhash]
  have hb1m : (transformFull cache0 code id).blocks.get ⟨i, hi⟩ ∈
      (transformFull cache0 code id).blocks := List.get_mem _ _ hi
  have hb2m : (transformFull cache0 code id).blocks.get ⟨j, hj⟩ ∈
      (transformFull cache0 code id).blocks := List.get_mem _ _ hj
  have hbr1 : ((transformFull cache0 code id).blocks.get ⟨i, hi⟩).reg ∈
      unitRegs (transformFull cache0 code id) := by
    simp only [unitRegs, List.mem_append, List.mem_map]
    exact Or.inr ⟨_, hb1m, rfl⟩
  have hbr2 : ((transformFull cache0 code id).blocks.get ⟨j, hj⟩).reg ∈
      unitRegs (transformFull cache0 code id) := by
    simp only [unitRegs, List.mem_append, List.mem_map]
    exact Or.inr ⟨_, hb2m, rfl⟩
  obtain ⟨hbm1, -, -⟩ := hunits _ hbr1
  obtain ⟨hbm2, -, -⟩ := hunits _ hbr2
  have hres1 := (hshapes _ hb1m).1
  have hres2 := (hshapes _ hb2m).1
  have hbh : ((transformFull cache0 code id).blocks.get ⟨i, hi⟩).reg.hash =
      ((transformFull cache0 code id).blocks.get ⟨j, hj⟩).reg.hash := by
    rw [hbm1.1, hbm2.1, hres1, hres2, hbeq]
  have hstartlt : ((transformFull cache0 code id).blocks.get ⟨i, hi⟩).start <
      ((transformFull cache0 code id).blocks.get ⟨j, hj⟩).start := by
    have hpw2 := (List.pairwise_iff_get.mp hpw)
      ⟨i, by simpa using hi⟩ ⟨j, by simpa using hj⟩ hij
    simpa using hpw2
  refine ⟨hhash, hm1.1, hm1.2.2.2.1, hm1.2.2.2.2.1, hlocal, hm1.2.1, hvirt, ?_,
    ?_, ?_, Nat.ne_of_lt hstartlt, hedits _ hb1m, hedits _ hb2m⟩
  · exact acount_eq_one hcnd hc1
  · rw [hbm1.2.1, hbm2.2.1, hbh]
  · rw [hbm1.2.2.1, hbm2.2.2.1, hbh]

theorem c1aux_len :
    1 < (transformFull [] (S "html\x60<h1>Hi</h1>\x60 html\x60<h1>Hi</h1>\x60")
      (S "/a/x.ts")).blocks.length := by decide

theorem c1_dedup_witness :
    (akeys ([] : List (Str × Str))).Nodup ∧
    (⟨S "<h1>Hi</h1>", S "<h1>Hi</h1>", S "97ab1a47",
      S "virtual:inline-svelte/97ab1a47.js", S "Inline_97ab1a47", true,
      S "import Inline_97ab1a47 from \x27virtual:inline-svelte/97ab1a47.js\x27;\n"⟩ :
        ModuleReg) ∈
      unitRegs (transformFull [] (S "html\x60<h1>Hi</h1>\x60 html\x60<h1>Hi</h1>\x60")
        (S "/a/x.ts")) ∧
    (⟨S "<h1>Hi</h1>", S "<h1>Hi</h1>", S "97ab1a47",
      S "virtual:inline-svelte/97ab1a47.js", S "Inline_97ab1a47", false, []⟩ :
        ModuleReg) ∈
      unitRegs (transformFull [] (S "html\x60<h1>Hi</h1>\x60 html\x60<h1>Hi</h1>\x60")
        (S "/a/x.ts")) ∧
    (S "97ab1a47" = hash8 (S "<h1>Hi</h1>") ∧
     (S "97ab1a47" : Str).length = 8 ∧
     S "Inline_97ab1a47" = S "Inline_" ++ S "97ab1a47" ∧
     acount (transformFull [] (S "html\x60<h1>Hi</h1>\x60 html\x60<h1>Hi</h1>\x60")
         (S "/a/x.ts")).cache (S "virtual:inline-svelte/97ab1a47.js") = 1 ∧
     ((transformFull [] (S "html\x60<h1>Hi</h1>\x60 html\x60<h1>Hi</h1>\x60")
         (S "/a/x.ts")).blocks.get
        ⟨0, Nat.lt_trans Nat.zero_lt_one c1aux_len⟩).reg.localName =
       ((transformFull [] (S "html\x60<h1>Hi</h1>\x60 html\x60<h1>Hi</h1>\x60")
         (S "/a/x.ts")).blocks.get ⟨1, c1aux_len⟩).reg.localName ∧
     ((transformFull [] (S "html\x60<h1>Hi</h1>\x60 html\x60<h1>Hi</h1>\x60")
         (S "/a/x.ts")).blocks.get
        ⟨0, Nat.lt_trans Nat.zero_lt_one c1aux_len⟩).start ≠
       ((transformFull [] (S "html\x60<h1>Hi</h1>\x60 html\x60<h1>Hi</h1>\x60")
         (S "/a/x.ts")).blocks.get ⟨1, c1aux_len⟩).start ∧
     (((transformFull [] (S "html\x60<h1>Hi</h1>\x60 html\x60<h1>Hi</h1>\x60")
          (S "/a/x.ts")).blocks.get
         ⟨0, Nat.lt_trans Nat.zero_lt_one c1aux_len⟩).start,
      ((transformFull [] (S "html\x60<h1>Hi</h1>\x60 html\x60<h1>Hi</h1>\x60")
          (S "/a/x.ts")).blocks.get
         ⟨0, Nat.lt_trans Nat.zero_lt_one c1aux_len⟩).matchEnd,
      ((transformFull [] (S "html\x60<h1>Hi</h1>\x60 html\x60<h1>Hi</h1>\x60")
          (S "/a/x.ts")).blocks.get
         ⟨0, Nat.lt_trans Nat.zero_lt_one c1aux_len⟩).reg.localName) ∈
       (transformFull [] (S "html\x60<h1>Hi</h1>\x60 html\x60<h1>Hi</h1>\x60")
         (S "/a/x.ts")).edits) := by
  refine ⟨by decide, by decide, by decide, ?_⟩
  obtain ⟨h1, h2, h3, h4, h5, h6, h7, h8, h9, h10, h11, h12, h13⟩ :=
    c1_dedup [] (S "html\x60<h1>Hi</h1>\x60 html\x60<h1>Hi</h1>\x60") (S "/a/x.ts")
      (by decide)
      ⟨S "<h1>Hi</h1>", S "<h1>Hi</h1>", S "97ab1a47",
        S "virtual:inline-svelte/97ab1a47.js", S "Inline_97ab1a47", true,
        S "import Inline_97ab1a47 from \x27virtual:inline-svelte/97ab1a47.js\x27;\n"⟩
      ⟨S "<h1>Hi</h1>", S "<h1>Hi</h1>", S "97ab1a47",
        S "virtual:inline-svelte/97ab1a47.js", S "Inline_97ab1a47", false, []⟩
      (by decide) (by decide) (by decide)
      0 1 (Nat.lt_trans Nat.zero_lt_one c1aux_len) c1aux_len Nat.zero_lt_one
      (by decide)
  exact ⟨h2, h3, h6, h8, h9, h11, h12⟩

/-! ### C3: binding forms for module-export and plain blocks -/

/-- C3: for every inline block whose registration is fresh (its hash not
already bound in this file), the generated binding is a plain
default import of `Inline_<hash>` from the virtual path when the markup
has no module-script exports, and a namespace import `__InlineNS_<hash>`
merged onto the default export via `Object.assign` when it does; the
emitted binding text is part of the accumulated import prelude and of
the rewritten output. -/
theorem c3_binding_forms (cache0 : List (Str × Str)) (code id : Str)
    (hnd : (akeys cache0).Nodup) (b : BlockResult)
    (hb : b ∈ (transformFull cache0 code id).blocks) (hf : b.reg.fresh = true) :
    (moduleScriptExportTest b.raw = false →
      b.reg.importAdded = plainImportFor b.reg.hash) ∧
    (moduleScriptExportTest b.raw = true →
      b.reg.importAdded = nsImportFor b.reg.hash) ∧
    b.reg.importAdded <:+: (transformFull cache0 code id).importsToAdd ∧
    (∀ res, (transformFull cache0 code id).result = some res →
      b.reg.importAdded <:+: res) := by
  obtain ⟨-, -, hunits, hshapes, hpre, -, -⟩ := transformFull_spec cache0 code id hnd
  have hbr : b.reg ∈ unitRegs (transformFull cache0 code id) := by
    simp only [unitRegs, List.mem_append, List.mem_map]
    exact Or.inr ⟨b, hb, rfl⟩
  obtain ⟨hm, -, hinf⟩ := hunits _ hbr
  have hraw : b.reg.raw = b.raw := (hshapes b hb).2.1
  have himp := hm.2.2.2.2.2.1 hf
  rw [hraw] at himp
  refine ⟨?_, ?_, hinf, ?_⟩
  · intro htest
    rw [himp, if_neg (by rw [htest]; exact Bool.false_ne_true)]
  · intro htest
    rw [himp, if_pos htest]
  · intro res hres
    have hpref := hpre res hres
    obtain ⟨tail, htail⟩ := hpref
    obtain ⟨s, t, hst⟩ := hinf
    exact ⟨s, t ++ tail, by rw [← htail, ← hst]; simp⟩

theorem c3_binding_forms_witness :
    (akeys ([] : List (Str × Str))).Nodup ∧
    ((transformFull []
        (S "html\x60<script module>export \x7b a \x7d;</script>\x7b1\x7d\x60 svelte\x60<p>z</p>\x60")
        (S "/a/x.ts")).blocks.getD 0
          ⟨0, 0, [], [], [], [], ⟨[], [], [], [], [], false, []⟩⟩) ∈
      (transformFull []
        (S "html\x60<script module>export \x7b a \x7d;</script>\x7b1\x7d\x60 svelte\x60<p>z</p>\x60")
        (S "/a/x.ts")).blocks ∧
    ((transformFull []
        (S "html\x60<script module>export \x7b a \x7d;</script>\x7b1\x7d\x60 svelte\x60<p>z</p>\x60")
        (S "/a/x.ts")).blocks.getD 0
          ⟨0, 0, [], [], [], [], ⟨[], [], [], [], [], false, []⟩⟩).reg.fresh = true ∧
    moduleScriptExportTest
      ((transformFull []
        (S "html\x60<script module>export \x7b a \x7d;</script>\x7b1\x7d\x60 svelte\x60<p>z</p>\x60")
        (S "/a/x.ts")).blocks.getD 0
          ⟨0, 0, [], [], [], [], ⟨[], [], [], [], [], false, []⟩⟩).raw = true ∧
    ((transformFull []
        (S "html\x60<script module>export \x7b a \x7d;</script>\x7b1\x7d\x60 svelte\x60<p>z</p>\x60")
        (S "/a/x.ts")).blocks.getD 0
          ⟨0, 0, [], [], [], [], ⟨[], [], [], [], [], false, []⟩⟩).reg.importAdded =
      nsImportFor
        ((transformFull []
          (S "html\x60<script module>export \x7b a \x7d;</script>\x7b1\x7d\x60 svelte\x60<p>z</p>\x60")
          (S "/a/x.ts")).blocks.getD 0
            ⟨0, 0, [], [], [], [], ⟨[], [], [], [], [], false, []⟩⟩).reg.hash := by
  refine ⟨by decide, by decide, by decide, by decide, ?_⟩
  exact (c3_binding_forms []
    (S "html\x60<script module>export \x7b a \x7d;</script>\x7b1\x7d\x60 svelte\x60<p>z</p>\x60")
    (S "/a/x.ts") (by decide) _ (by decide) (by decide)).2.1 (by decide)

/-! ### C7: shadowing consults only the first script block -/

/-- C7 counterexample: in a file whose fence defines `count` and whose
inline block opens with a module script followed by an instance script
declaring `let count`, the shadowing test reads only the FIRST
`<script ...>...</script>` match (here the module script), so the shared
`count` definition is injected anyway: `count` appears in the block's
injected names and `const count = 1;` lands in its resolved markup, even
though the block's own instance script declares `count`. -/
theorem c7_shadowing_counterexample :
    (transformFull []
        (S "/* svelte:definitions\nconst count = 1;\n*/\nhtml\x60<script module>export\x7ba\x7d;</script><script>let count=1;</script>\x7bcount\x7d\x60")
        (S "/a/x.ts")).blocks.length = 1 ∧
    S "<script>let count=1;</script>" <:+:
      ((transformFull []
        (S "/* svelte:definitions\nconst count = 1;\n*/\nhtml\x60<script module>export\x7ba\x7d;</script><script>let count=1;</script>\x7bcount\x7d\x60")
        (S "/a/x.ts")).blocks.getD 0
          ⟨0, 0, [], [], [], [], ⟨[], [], [], [], [], false, []⟩⟩).raw ∧
    S "count" ∈
      ((transformFull []
        (S "/* svelte:definitions\nconst count = 1;\n*/\nhtml\x60<script module>export\x7ba\x7d;</script><script>let count=1;</script>\x7bcount\x7d\x60")
        (S "/a/x.ts")).blocks.getD 0
          ⟨0, 0, [], [], [], [], ⟨[], [], [], [], [], false, []⟩⟩).injectedNames ∧
    S "\nconst count = 1;" <:+:
      ((transformFull []
        (S "/* svelte:definitions\nconst count = 1;\n*/\nhtml\x60<script module>export\x7ba\x7d;</script><script>let count=1;</script>\x7bcount\x7d\x60")
        (S "/a/x.ts")).blocks.getD 0
          ⟨0, 0, [], [], [], [], ⟨[], [], [], [], [], false, []⟩⟩).resolved := by
  exact ⟨by decide, by decide, by decide, by decide⟩

/-- C7 (amended): for every inline block, a shared fence definition is
withheld from injection exactly by the test on the content of the FIRST
`<script ...>...</script>` match of the raw markup (which may be a module
script rather than the instance script): every name injected into the
block fails the declared-in-first-script test. -/
theorem c7_shadowing_amended (cache0 : List (Str × Str)) (code id : Str)
    (hnd : (akeys cache0).Nodup) (b : BlockResult)
    (hb : b ∈ (transformFull cache0 code id).blocks) (n : Str)
    (hmem : n ∈ b.injectedNames) :
    declaredTest (firstScriptContent b.raw) n = false := by
  obtain ⟨-, -, -, hshapes, -, -, -⟩ := transformFull_spec cache0 code id hnd
  exact (hshapes b hb).2.2.1 n hmem

theorem c7_shadowing_amended_witness :
    (akeys ([] : List (Str × Str))).Nodup ∧
    ((transformFull []
        (S "/* svelte:definitions\nconst count = 1;\n*/\nhtml\x60<script module>export\x7ba\x7d;</script><script>let count=1;</script>\x7bcount\x7d\x60")
        (S "/a/x.ts")).blocks.getD 0
          ⟨0, 0, [], [], [], [], ⟨[], [], [], [], [], false, []⟩⟩) ∈
      (transformFull []
        (S "/* svelte:definitions\nconst count = 1;\n*/\nhtml\x60<script module>export\x7ba\x7d;</script><script>let count=1;</script>\x7bcount\x7d\x60")
        (S "/a/x.ts")).blocks ∧
    S "count" ∈
      ((transformFull []
        (S "/* svelte:definitions\nconst count = 1;\n*/\nhtml\x60<script module>export\x7ba\x7d;</script><script>let count=1;</script>\x7bcount\x7d\x60")
        (S "/a/x.ts")).blocks.getD 0
          ⟨0, 0, [], [], [], [], ⟨[], [], [], [], [], false, []⟩⟩).injectedNames ∧
    declaredTest
      (firstScriptContent
        ((transformFull []
          (S "/* svelte:definitions\nconst count = 1;\n*/\nhtml\x60<script module>export\x7ba\x7d;</script><script>let count=1;</script>\x7bcount\x7d\x60")
          (S "/a/x.ts")).blocks.getD 0
            ⟨0, 0, [], [], [], [], ⟨[], [], [], [], [], false, []⟩⟩).raw)
      (S "count") = false := by
  refine ⟨by decide, by decide, by decide, ?_⟩
  exact c7_shadowing_amended []
    (S "/* svelte:definitions\nconst count = 1;\n*/\nhtml\x60<script module>export\x7ba\x7d;</script><script>let count=1;</script>\x7bcount\x7d\x60")
    (S "/a/x.ts") (by decide) _ (by decide) (S "count") (by decide)

/-! ### C8: the unchanged sentinel -/

theorem processBlock_blocks_len (ctx : BlockCtx) (code : Str)
    (st : BlockLoopState) (m : TplMatch) :
    (processBlock ctx code st m).blocks.length = st.blocks.length + 1 := by
  simp [processBlock]

theorem processBlocks_noFence_len (ctx : BlockCtx) (code : Str)
    (hf : ctx.fence = none) (ms : List TplMatch) :
    ∀ st : BlockLoopState,
      (processBlocks ctx code st ms).blocks.length =
        st.blocks.length + ms.length := by
  induction ms with
  | nil => intro st; simp [processBlocks]
  | cons m ms ih =>
    intro st
    simp only [processBlocks, hf]
    rw [if_neg (by simp)]
    rw [ih (processBlock ctx code st m), processBlock_blocks_len]
    simp only [List.length_cons]
    omega

/-- C8: the transform yields no result exactly when the file id is not a
user source (node_modules path or non-script extension) or when the file
has neither a definitions fence nor any tagged template block; in every
other case a rewritten output is produced. -/
theorem c8_unchanged_iff (cache0 : List (Str × Str)) (code id : Str) :
    (transformFull cache0 code id).result = none ↔
      isUserSource id = false ∨
        (fenceFind code = none ∧ tplMatches code = []) := by
  unfold transformFull
  cases hu : isUserSource id with
  | false =>
    rw [if_pos (by simp)]
    exact iff_of_true rfl (Or.inl rfl)
  | true =>
    rw [if_neg (by simp)]
    cases hfc : fenceFind code with
    | some f =>
      refine iff_of_false ?_ ?_
      · simp [transformWithFence, withFenceCore]
      · rintro (h | ⟨hn, -⟩)
        · exact absurd h (by simp)
        · exact absurd hn (by simp)
    | none =>
      have hb := processBlocks_noFence_len ⟨[], [], [], [], [], [], none⟩ code rfl
        (tplMatches code) ⟨⟨[], cache0, []⟩, []⟩
      simp only [transformNoFence]
      split
      next hbb =>
        refine iff_of_true rfl (Or.inr ⟨by simp, ?_⟩)
        rw [hbb] at hb
        have hlen : (tplMatches code).length = 0 := by simpa using hb.symm
        exact List.length_eq_zero.mp hlen
      next b bs hbb =>
        refine iff_of_false (by simp) ?_
        rintro (h | ⟨-, ht⟩)
        · exact absurd h (by simp)
        · rw [hbb] at hb
          rw [ht] at hb
          simp at hb

/-! ### C10: cache immutability across transform calls -/

/-- C10: once a virtual-path key holds a markup value in the process-wide
cache, no later sequence of transform calls replaces or removes it (the
insertion is guarded by a cache-membership check), and the cache keys stay
duplicate-free; `load` takes the cache read-only and returns only compiled
code, so it cannot mutate it. -/
theorem c10_cache_immutable (k v : Str) (calls : List (Str × Str)) :
    ∀ cache0 : List (Str × Str), (akeys cache0).Nodup →
      aget cache0 k = some v →
      aget (runTransforms cache0 calls) k = some v ∧
      (akeys (runTransforms cache0 calls)).Nodup := by
  induction calls with
  | nil => exact fun cache0 hnd hk => ⟨hk, hnd⟩
  | cons c rest ih =>
    intro cache0 hnd hk
    obtain ⟨code, id⟩ := c
    have h := transformFull_spec cache0 code id hnd
    exact ih (transformFull cache0 code id).cache h.1 (h.2.1 k v hk)

theorem c10_cache_immutable_witness :
    (akeys [(S "virtual:inline-svelte/f849504d.js", S "ORIG")]).Nodup ∧
    aget [(S "virtual:inline-svelte/f849504d.js", S "ORIG")]
      (S "virtual:inline-svelte/f849504d.js") = some (S "ORIG") ∧
    aget (runTransforms [(S "virtual:inline-svelte/f849504d.js", S "ORIG")]
        [(S "html\x60<p/>\x60", S "/a/x.ts")])
      (S "virtual:inline-svelte/f849504d.js") = some (S "ORIG") := by
  refine ⟨by decide, by decide, ?_⟩
  exact (c10_cache_immutable (S "virtual:inline-svelte/f849504d.js") (S "ORIG")
    [(S "html\x60<p/>\x60", S "/a/x.ts")]
    [(S "virtual:inline-svelte/f849504d.js", S "ORIG")]
    (by decide) (by decide)).1
